import Mathlib

/-!
Verification development for the Maze_Solver_RP2040 core.

The C++ core (src/core/MazeMap.hpp, src/core/Planner.hpp, src/core/Navigator.cpp,
src/core/Learning.hpp, src/core/PersistentMemory.cpp) is shallowly embedded below:

* machine ints (`int`, `uint8_t`, `uint16_t`) become `Int`/`Nat`, with an explicit
  `% 65536` where a `uint16_t` conversion can truncate;
* `float` weights and scores become exact rationals (`ℚ`); the source constants
  0.05f, 0.1f, 0.2f, 3.0f are modelled by the rationals they denote;
* the cell grid `std::vector<Cell>` indexed by `y*w + x` becomes a total function
  `Int → Int → Cell`; every source access is guarded by `in_bounds`, where the
  vector and the function agree;
* the two unbounded source loops (the BFS work-list loop and the predecessor-chain
  walk of `Planner::bfs_path`) become fuel recursion; the fuel `w*h` (resp.
  `w*h + 1`) dominates the loop counts of the source, whose queue pops and chain
  steps are bounded by the number of cells.
-/

namespace MazeSolver

/-- Grid point with signed integer coordinates, from struct Point (MazeMap.hpp). -/
structure Point where
  x : Int
  y : Int
deriving DecidableEq, Repr

/-- Wall flags of one cell, from struct Cell (MazeMap.hpp). All four default to false. -/
structure Cell where
  wall_n : Bool
  wall_e : Bool
  wall_s : Bool
  wall_w : Bool
deriving DecidableEq, Repr

/-- Cell with no walls, the value a freshly constructed MazeMap holds in every slot. -/
def blankCell : Cell :=
  { wall_n := false, wall_e := false, wall_s := false, wall_w := false }

/-- Maze map: width, height and the cell grid, from class MazeMap (MazeMap.hpp).
The row-major vector grid_ is modelled as a function of the (x, y) coordinates;
all source reads and writes of grid_ go through in-bounds coordinates. -/
structure MazeMap where
  w : Int
  h : Int
  grid : Int → Int → Cell

/-- Freshly constructed MazeMap(w, h): all walls absent. -/
def mkMazeMap (w h : Int) : MazeMap :=
  { w := w, h := h, grid := fun _ _ => blankCell }

/-- MazeMap::in_bounds. -/
def MazeMap.in_bounds (m : MazeMap) (x y : Int) : Bool :=
  decide (0 ≤ x ∧ 0 ≤ y ∧ x < m.w ∧ y < m.h)

theorem MazeMap.in_bounds_iff (m : MazeMap) (x y : Int) :
    m.in_bounds x y = true ↔ (0 ≤ x ∧ 0 ≤ y ∧ x < m.w ∧ y < m.h) := by
  simp [MazeMap.in_bounds]

/-- Absolute direction; the source encodes these as the chars 'N' 'E' 'S' 'W'. -/
inductive Dir where
  | north
  | east
  | south
  | west
deriving DecidableEq, Repr

/-- Char encoding of a direction as used by MazeMap::set_wall. -/
def Dir.toChar : Dir → Char
  | .north => 'N'
  | .east => 'E'
  | .south => 'S'
  | .west => 'W'

/-- Partial inverse of Dir.toChar; chars outside NESW have no direction. -/
def Dir.ofChar (c : Char) : Option Dir :=
  if c = 'N' then some .north
  else if c = 'E' then some .east
  else if c = 'S' then some .south
  else if c = 'W' then some .west
  else none

/-- Opposite direction (the neighbour's side of the same edge). -/
def Dir.opp : Dir → Dir
  | .north => .south
  | .east => .west
  | .south => .north
  | .west => .east

/-- X displacement of a direction (grid x grows to the east). -/
def Dir.dx : Dir → Int
  | .east => 1
  | .west => -1
  | _ => 0

/-- Y displacement of a direction (grid y grows to the south). -/
def Dir.dy : Dir → Int
  | .north => -1
  | .south => 1
  | _ => 0

/-- Read one wall bit of the cell at (x, y). -/
def wallBit (m : MazeMap) (x y : Int) : Dir → Bool
  | .north => (m.grid x y).wall_n
  | .east => (m.grid x y).wall_e
  | .south => (m.grid x y).wall_s
  | .west => (m.grid x y).wall_w

/-- Overwrite one wall field of a cell. -/
def setCellBit (c : Cell) (d : Dir) (present : Bool) : Cell :=
  match d with
  | .north => { c with wall_n := present }
  | .east => { c with wall_e := present }
  | .south => { c with wall_s := present }
  | .west => { c with wall_w := present }

/-- Update the grid at one coordinate pair. -/
def updGrid (g : Int → Int → Cell) (x y : Int) (f : Cell → Cell) : Int → Int → Cell :=
  fun a b => if a = x ∧ b = y then f (g a b) else g a b

/-- Set one wall field of the cell at (x, y), leaving everything else unchanged. -/
def setBit (m : MazeMap) (x y : Int) (d : Dir) (present : Bool) : MazeMap :=
  { m with grid := updGrid m.grid x y (fun c => setCellBit c d present) }

/-- MazeMap::set_wall: bidirectional wall update.  Mirrors the source exactly:
no-op when (x, y) is out of bounds, otherwise writes the named wall of (x, y)
and, when the neighbour across dir is in bounds, the neighbour's opposite wall.
A dir char outside NESW falls through all branches and changes nothing. -/
def set_wall (m : MazeMap) (x y : Int) (dir : Char) (present : Bool) : MazeMap :=
  if m.in_bounds x y then
    if dir = 'N' then
      let m1 := setBit m x y .north present
      if m.in_bounds x (y - 1) then setBit m1 x (y - 1) .south present else m1
    else if dir = 'E' then
      let m1 := setBit m x y .east present
      if m.in_bounds (x + 1) y then setBit m1 (x + 1) y .west present else m1
    else if dir = 'S' then
      let m1 := setBit m x y .south present
      if m.in_bounds x (y + 1) then setBit m1 x (y + 1) .north present else m1
    else if dir = 'W' then
      let m1 := setBit m x y .west present
      if m.in_bounds (x - 1) y then setBit m1 (x - 1) y .east present else m1
    else m
  else m

/-- Direction-typed restatement of set_wall, used to reason uniformly in the
direction.  set_wall_eq shows it agrees with set_wall. -/
def setWallD (m : MazeMap) (x y : Int) (dc : Dir) (p : Bool) : MazeMap :=
  if m.in_bounds x y then
    if m.in_bounds (x + dc.dx) (y + dc.dy) then
      setBit (setBit m x y dc p) (x + dc.dx) (y + dc.dy) dc.opp p
    else setBit m x y dc p
  else m

theorem set_wall_eq (m : MazeMap) (x y : Int) (dir : Char) (p : Bool) :
    set_wall m x y dir p =
      (match Dir.ofChar dir with
        | none => m
        | some dc => setWallD m x y dc p) := by
  by_cases hN : dir = 'N'
  · subst hN
    simp +decide [set_wall, setWallD, Dir.ofChar, Dir.dx, Dir.dy, Dir.opp,
      show y + (-1 : Int) = y - 1 by ring, show x + (0 : Int) = x by ring]
  · by_cases hE : dir = 'E'
    · subst hE
      simp +decide [set_wall, setWallD, Dir.ofChar, Dir.dx, Dir.dy, Dir.opp,
        show y + (0 : Int) = y by ring]
    · by_cases hS : dir = 'S'
      · subst hS
        simp +decide [set_wall, setWallD, Dir.ofChar, Dir.dx, Dir.dy, Dir.opp,
          show x + (0 : Int) = x by ring]
      · by_cases hW : dir = 'W'
        · subst hW
          simp +decide [set_wall, setWallD, Dir.ofChar, Dir.dx, Dir.dy, Dir.opp,
            show y + (0 : Int) = y by ring, show x + (-1 : Int) = x - 1 by ring]
        · simp only [set_wall, Dir.ofChar, hN, hE, hS, hW, if_false, ite_self]

theorem setWallD_w (m : MazeMap) (x y : Int) (dc : Dir) (p : Bool) :
    (setWallD m x y dc p).w = m.w := by
  unfold setWallD
  split
  · split <;> rfl
  · rfl

theorem setWallD_h (m : MazeMap) (x y : Int) (dc : Dir) (p : Bool) :
    (setWallD m x y dc p).h = m.h := by
  unfold setWallD
  split
  · split <;> rfl
  · rfl

theorem set_wall_w (m : MazeMap) (x y : Int) (dir : Char) (p : Bool) :
    (set_wall m x y dir p).w = m.w := by
  rw [set_wall_eq]
  cases Dir.ofChar dir
  · rfl
  · exact setWallD_w _ _ _ _ _

theorem set_wall_h (m : MazeMap) (x y : Int) (dir : Char) (p : Bool) :
    (set_wall m x y dir p).h = m.h := by
  rw [set_wall_eq]
  cases Dir.ofChar dir
  · rfl
  · exact setWallD_h _ _ _ _ _

/-- Reading after setBit: changed exactly at the named cell and field. -/
theorem wallBit_setBit (m : MazeMap) (x y : Int) (d : Dir) (p : Bool) (a b : Int) (e : Dir) :
    wallBit (setBit m x y d p) a b e =
      if a = x ∧ b = y ∧ e = d then p else wallBit m a b e := by
  cases d <;> cases e <;>
    by_cases hx : a = x <;> by_cases hy : b = y <;>
      simp [wallBit, setBit, updGrid, setCellBit, hx, hy]

/-- Which wall bits a single bidirectional wall write addresses: the bit of the
(in-bounds) base cell in the written direction, and the bit of the in-bounds
mirror cell across that direction on the opposite side. -/
def opTouches (m : MazeMap) (x y : Int) (dc : Dir) (a b : Int) (e : Dir) : Prop :=
  m.in_bounds x y = true ∧
    ((a = x ∧ b = y ∧ e = dc) ∨
      (a = x + dc.dx ∧ b = y + dc.dy ∧ m.in_bounds a b = true ∧ e = dc.opp))

instance (m : MazeMap) (x y : Int) (dc : Dir) (a b : Int) (e : Dir) :
    Decidable (opTouches m x y dc a b e) := by
  unfold opTouches
  infer_instance

/-- The base cell and the mirror cell of one wall write are distinct. -/
theorem dir_step_ne (dc : Dir) (x y : Int) : ¬ (x + dc.dx = x ∧ y + dc.dy = y) := by
  cases dc <;> simp only [Dir.dx, Dir.dy] <;> omega

/-- A direction never equals its opposite. -/
theorem dir_ne_opp (dc : Dir) : dc.opp ≠ dc := by
  cases dc <;> simp [Dir.opp]

theorem wallBit_setWallD (m : MazeMap) (x y : Int) (dc : Dir) (p : Bool)
    (a b : Int) (e : Dir) :
    wallBit (setWallD m x y dc p) a b e =
      if opTouches m x y dc a b e then p else wallBit m a b e := by
  unfold setWallD
  by_cases hin : m.in_bounds x y = true
  · rw [if_pos hin]
    by_cases hnb : m.in_bounds (x + dc.dx) (y + dc.dy) = true
    · rw [if_pos hnb, wallBit_setBit, wallBit_setBit]
      by_cases h2 : a = x + dc.dx ∧ b = y + dc.dy ∧ e = dc.opp
      · rw [if_pos h2,
          if_pos ⟨hin, Or.inr ⟨h2.1, h2.2.1, by rw [h2.1, h2.2.1]; exact hnb, h2.2.2⟩⟩]
      · rw [if_neg h2]
        by_cases h1 : a = x ∧ b = y ∧ e = dc
        · rw [if_pos h1, if_pos ⟨hin, Or.inl h1⟩]
        · rw [if_neg h1, if_neg]
          intro hc
          rcases hc with ⟨-, hc | hc⟩
          · exact h1 hc
          · exact h2 ⟨hc.1, hc.2.1, hc.2.2.2⟩
    · rw [if_neg hnb, wallBit_setBit]
      by_cases h1 : a = x ∧ b = y ∧ e = dc
      · rw [if_pos h1, if_pos ⟨hin, Or.inl h1⟩]
      · rw [if_neg h1, if_neg]
        intro hc
        rcases hc with ⟨-, hc | hc⟩
        · exact h1 hc
        · obtain ⟨e1, e2, e3, -⟩ := hc
          rw [e1, e2] at e3
          exact hnb e3
  · rw [if_neg hin, if_neg]
    intro hc
    exact hin hc.1

/-- Reading after set_wall, for an arbitrary dir char. -/
theorem wallBit_set_wall (m : MazeMap) (x y : Int) (dir : Char) (p : Bool)
    (a b : Int) (e : Dir) :
    wallBit (set_wall m x y dir p) a b e =
      (match Dir.ofChar dir with
        | none => wallBit m a b e
        | some dc => if opTouches m x y dc a b e then p else wallBit m a b e) := by
  rw [set_wall_eq]
  cases Dir.ofChar dir
  · rfl
  · exact wallBit_setWallD _ _ _ _ _ _ _ _

theorem Dir.dx_opp (d : Dir) : d.opp.dx = -d.dx := by
  cases d <;> rfl

theorem Dir.dy_opp (d : Dir) : d.opp.dy = -d.dy := by
  cases d <;> rfl

theorem Dir.opp_opp (d : Dir) : d.opp.opp = d := by
  cases d <;> rfl

theorem setWallD_in_bounds (m : MazeMap) (x y : Int) (dc : Dir) (p : Bool) (a b : Int) :
    (setWallD m x y dc p).in_bounds a b = m.in_bounds a b := by
  unfold MazeMap.in_bounds
  rw [setWallD_w, setWallD_h]

theorem set_wall_in_bounds (m : MazeMap) (x y : Int) (dir : Char) (p : Bool) (a b : Int) :
    (set_wall m x y dir p).in_bounds a b = m.in_bounds a b := by
  unfold MazeMap.in_bounds
  rw [set_wall_w, set_wall_h]

/-- Bidirectional wall coherence: every interior edge is recorded identically by
its two adjacent cells.  This is the invariant claimed in the spec for GridMap. -/
def Coherent (m : MazeMap) : Prop :=
  ∀ (x y : Int) (d : Dir), m.in_bounds x y = true →
    m.in_bounds (x + d.dx) (y + d.dy) = true →
    wallBit m x y d = wallBit m (x + d.dx) (y + d.dy) d.opp

/-- Moving to the mirror side of an interior edge maps the touched-bit predicate
onto itself. -/
theorem opTouches_mirror_mp (m : MazeMap) (x0 y0 : Int) (dc : Dir) (x y : Int) (d : Dir)
    (_hx : m.in_bounds x y = true) (hn : m.in_bounds (x + d.dx) (y + d.dy) = true)
    (h : opTouches m x0 y0 dc x y d) :
    opTouches m x0 y0 dc (x + d.dx) (y + d.dy) d.opp := by
  rcases h with ⟨hin0, hA | hB⟩
  · obtain ⟨e1, e2, e3⟩ := hA
    subst e1; subst e2; subst e3
    exact ⟨hin0, Or.inr ⟨rfl, rfl, hn, rfl⟩⟩
  · obtain ⟨e1, e2, e3, e4⟩ := hB
    refine ⟨hin0, Or.inl ⟨?_, ?_, ?_⟩⟩
    · rw [e1, e4, Dir.dx_opp]
      ring
    · rw [e2, e4, Dir.dy_opp]
      ring
    · rw [e4, Dir.opp_opp]

theorem opTouches_mirror (m : MazeMap) (x0 y0 : Int) (dc : Dir) (x y : Int) (d : Dir)
    (hx : m.in_bounds x y = true) (hn : m.in_bounds (x + d.dx) (y + d.dy) = true) :
    opTouches m x0 y0 dc x y d ↔ opTouches m x0 y0 dc (x + d.dx) (y + d.dy) d.opp := by
  constructor
  · exact opTouches_mirror_mp m x0 y0 dc x y d hx hn
  · intro h
    have hx2 : m.in_bounds ((x + d.dx) + d.opp.dx) ((y + d.dy) + d.opp.dy) = true := by
      rw [Dir.dx_opp, Dir.dy_opp]
      have ex : x + d.dx + -d.dx = x := by ring
      have ey : y + d.dy + -d.dy = y := by ring
      rw [ex, ey]
      exact hx
    have := opTouches_mirror_mp m x0 y0 dc (x + d.dx) (y + d.dy) d.opp hn hx2 h
    have ex : x + d.dx + d.opp.dx = x := by rw [Dir.dx_opp]; ring
    have ey : y + d.dy + d.opp.dy = y := by rw [Dir.dy_opp]; ring
    rw [ex, ey, Dir.opp_opp] at this
    exact this

theorem coherent_setWallD (m : MazeMap) (x0 y0 : Int) (dc : Dir) (p : Bool)
    (hC : Coherent m) : Coherent (setWallD m x0 y0 dc p) := by
  intro x y d hx hn
  rw [setWallD_in_bounds] at hx
  rw [setWallD_in_bounds] at hn
  rw [wallBit_setWallD, wallBit_setWallD]
  by_cases h1 : opTouches m x0 y0 dc x y d
  · rw [if_pos h1, if_pos ((opTouches_mirror m x0 y0 dc x y d hx hn).mp h1)]
  · rw [if_neg h1, if_neg (fun hc => h1 ((opTouches_mirror m x0 y0 dc x y d hx hn).mpr hc)),
      hC x y d hx hn]

theorem coherent_set_wall (m : MazeMap) (x y : Int) (dir : Char) (p : Bool)
    (hC : Coherent m) : Coherent (set_wall m x y dir p) := by
  rw [set_wall_eq]
  cases Dir.ofChar dir
  · exact hC
  · exact coherent_setWallD _ _ _ _ _ hC

/-- Sequence of set_wall calls, each entry being x, y, dir char, present flag. -/
def applyOps (m : MazeMap) (ops : List (Int × Int × Char × Bool)) : MazeMap :=
  ops.foldl (fun acc op => set_wall acc op.1 op.2.1 op.2.2.1 op.2.2.2) m

theorem applyOps_nil (m : MazeMap) : applyOps m [] = m := rfl

theorem applyOps_cons (m : MazeMap) (op : Int × Int × Char × Bool)
    (rest : List (Int × Int × Char × Bool)) :
    applyOps m (op :: rest) = applyOps (set_wall m op.1 op.2.1 op.2.2.1 op.2.2.2) rest := rfl

theorem coherent_mkMazeMap (w h : Int) : Coherent (mkMazeMap w h) := by
  intro x y d _ _
  cases d <;> rfl

theorem coherent_applyOps (ops : List (Int × Int × Char × Bool)) (m : MazeMap)
    (hC : Coherent m) : Coherent (applyOps m ops) := by
  induction ops generalizing m with
  | nil => exact hC
  | cons op rest ih => exact ih _ (coherent_set_wall _ _ _ _ _ hC)

theorem applyOps_w (ops : List (Int × Int × Char × Bool)) (m : MazeMap) :
    (applyOps m ops).w = m.w := by
  induction ops generalizing m with
  | nil => rfl
  | cons op rest ih => rw [applyOps_cons, ih, set_wall_w]

theorem applyOps_h (ops : List (Int × Int × Char × Bool)) (m : MazeMap) :
    (applyOps m ops).h = m.h := by
  induction ops generalizing m with
  | nil => rfl
  | cons op rest ih => rw [applyOps_cons, ih, set_wall_h]

/-- Claim C3: starting from a freshly constructed MazeMap (all walls absent),
after any finite sequence of set_wall calls, for every in-bounds cell and every
direction whose neighbour is also in bounds, the wall bit of the cell toward the
direction equals the wall bit of the neighbour toward the opposite direction;
and set_wall on an out-of-bounds cell is a no-op. -/
theorem set_wall_coherent_and_oob_noop :
    (∀ (w h : Int) (ops : List (Int × Int × Char × Bool)),
        Coherent (applyOps (mkMazeMap w h) ops)) ∧
      (∀ (m : MazeMap) (x y : Int) (dir : Char) (p : Bool),
        m.in_bounds x y = false → set_wall m x y dir p = m) := by
  constructor
  · intro w h ops
    exact coherent_applyOps ops _ (coherent_mkMazeMap w h)
  · intro m x y dir p hoob
    unfold set_wall
    rw [hoob]
    simp

/-- Concrete instantiation of set_wall_coherent_and_oob_noop: a 2x2 map after one
wall write is coherent across the (0,0)-(1,0) edge, and an out-of-bounds write
changes nothing. -/
theorem set_wall_coherent_and_oob_noop_witness :
    (wallBit (applyOps (mkMazeMap 2 2) [(0, 0, 'E', true)]) 0 0 Dir.east =
        wallBit (applyOps (mkMazeMap 2 2) [(0, 0, 'E', true)])
          (0 + Dir.east.dx) (0 + Dir.east.dy) Dir.east.opp) ∧
      set_wall (mkMazeMap 2 2) 5 5 'N' true = mkMazeMap 2 2 :=
  ⟨set_wall_coherent_and_oob_noop.1 2 2 [(0, 0, 'E', true)] 0 0 Dir.east
      (by decide) (by decide),
    set_wall_coherent_and_oob_noop.2 (mkMazeMap 2 2) 5 5 'N' true (by decide)⟩

/-! Learning: heuristic weights and the reward update rule (Learning.hpp).
The float weights are modelled as exact rationals. -/

/-- Preference weights for each action, from struct Heuristics (Learning.hpp).
Every weight defaults to 1.0. -/
structure Heuristics where
  w_right : ℚ
  w_front : ℚ
  w_left : ℚ
  w_back : ℚ
deriving DecidableEq, Repr

/-- Default-constructed Heuristics: every weight 1.0. -/
def defaultHeuristics : Heuristics :=
  { w_right := 1, w_front := 1, w_left := 1, w_back := 1 }

/-- Clamp of one weight as performed inline by update_heuristic: first the lower
test against 0.2, then the upper test against 3.0, as two sequential ifs. -/
def clampWeight (v : ℚ) : ℚ :=
  let v1 := if v < 1/5 then 1/5 else v
  if v1 > 3 then 3 else v1

/-- update_heuristic (Learning.hpp): bump the weight selected by the action index
(0=right, 1=front, 2=left, 3=back) by lr * reward with lr = 0.05, saturating into
the range 0.2 .. 3.0.  Any other index changes nothing. -/
def update_heuristic (h : Heuristics) (action : ℕ) (reward : ℚ) : Heuristics :=
  let lr : ℚ := 1/20
  if action = 0 then { h with w_right := clampWeight (h.w_right + lr * reward) }
  else if action = 1 then { h with w_front := clampWeight (h.w_front + lr * reward) }
  else if action = 2 then { h with w_left := clampWeight (h.w_left + lr * reward) }
  else if action = 3 then { h with w_back := clampWeight (h.w_back + lr * reward) }
  else h

/-- Range invariant for the weights, as stated by the spec. -/
def WeightsInRange (h : Heuristics) : Prop :=
  (1/5 ≤ h.w_right ∧ h.w_right ≤ 3) ∧ (1/5 ≤ h.w_front ∧ h.w_front ≤ 3) ∧
    (1/5 ≤ h.w_left ∧ h.w_left ≤ 3) ∧ (1/5 ≤ h.w_back ∧ h.w_back ≤ 3)

theorem clampWeight_mem (v : ℚ) : 1/5 ≤ clampWeight v ∧ clampWeight v ≤ 3 := by
  by_cases h1 : v < 1/5
  · simp only [clampWeight, h1, if_true]
    norm_num
  · by_cases h2 : v > 3
    · simp only [clampWeight, h1, if_false, h2, if_true]
      norm_num
    · simp only [clampWeight, h1, if_false, h2]
      exact ⟨not_lt.mp h1, not_lt.mp h2⟩

theorem clampWeight_of_gt (v : ℚ) (h : 3 < v) : clampWeight v = 3 := by
  have h1 : ¬ v < 1/5 := by intro hc; linarith
  simp only [clampWeight, h1, if_false]
  rw [if_pos h]

theorem update_heuristic_in_range (h : Heuristics) (action : ℕ) (reward : ℚ)
    (hr : WeightsInRange h) : WeightsInRange (update_heuristic h action reward) := by
  unfold update_heuristic WeightsInRange
  obtain ⟨h1, h2, h3, h4⟩ := hr
  split
  · exact ⟨clampWeight_mem _, h2, h3, h4⟩
  · split
    · exact ⟨h1, clampWeight_mem _, h3, h4⟩
    · split
      · exact ⟨h1, h2, clampWeight_mem _, h4⟩
      · split
        · exact ⟨h1, h2, h3, clampWeight_mem _⟩
        · exact ⟨h1, h2, h3, h4⟩

/-- Fold a list of (action, reward) update calls over a Heuristics value. -/
def applyUpdates (h : Heuristics) (ops : List (ℕ × ℚ)) : Heuristics :=
  ops.foldl (fun acc op => update_heuristic acc op.1 op.2) h

theorem applyUpdates_in_range (ops : List (ℕ × ℚ)) (h : Heuristics)
    (hr : WeightsInRange h) : WeightsInRange (applyUpdates h ops) := by
  induction ops generalizing h with
  | nil => exact hr
  | cons op rest ih => exact ih _ (update_heuristic_in_range _ _ _ hr)

/-- Iterated identical update, modelling repeated update(Right, +1e6). -/
def iterUpdate (h : Heuristics) (action : ℕ) (reward : ℚ) : ℕ → Heuristics
  | 0 => h
  | Nat.succ n => update_heuristic (iterUpdate h action reward n) action reward

theorem defaultHeuristics_in_range : WeightsInRange defaultHeuristics := by
  unfold WeightsInRange defaultHeuristics
  norm_num

/-- One update(Right, 1e6) from any in-range state saturates w_right at 3.0. -/
theorem update_right_million_saturates (h : Heuristics) (hr : WeightsInRange h) :
    (update_heuristic h 0 1000000).w_right = 3 := by
  have hhi : (3 : ℚ) < h.w_right + 1/20 * 1000000 := by
    have := hr.1.1
    calc (3 : ℚ) < 1/5 + 1/20 * 1000000 := by norm_num
      _ ≤ h.w_right + 1/20 * 1000000 := by linarith
  unfold update_heuristic
  dsimp only
  rw [if_pos rfl]
  exact clampWeight_of_gt _ hhi

theorem iterUpdate_in_range (h : Heuristics) (action : ℕ) (reward : ℚ)
    (hr : WeightsInRange h) : ∀ n, WeightsInRange (iterUpdate h action reward n) := by
  intro n
  induction n with
  | zero => exact hr
  | succ j ih => exact update_heuristic_in_range _ _ _ ih

/-- Claim C7: starting from the default weights 1.0, any finite sequence of
update_heuristic calls keeps each of the four weights within 0.2 .. 3.0, and
iterating update(Right, +1e6) at least once leaves w_right saturated at 3.0. -/
theorem update_heuristic_bounds_and_saturation :
    (∀ ops : List (ℕ × ℚ), WeightsInRange (applyUpdates defaultHeuristics ops)) ∧
      (∀ n : ℕ, 1 ≤ n → (iterUpdate defaultHeuristics 0 1000000 n).w_right = 3) := by
  constructor
  · intro ops
    exact applyUpdates_in_range ops _ defaultHeuristics_in_range
  · intro n hn
    obtain ⟨k, rfl⟩ := Nat.exists_eq_add_of_le hn
    rw [show 1 + k = k + 1 by omega]
    exact update_right_million_saturates _
      (iterUpdate_in_range _ _ _ defaultHeuristics_in_range k)

/-- Concrete instantiation of update_heuristic_bounds_and_saturation: a short
update sequence stays in range and a single giant reward saturates w_right. -/
theorem update_heuristic_bounds_and_saturation_witness :
    WeightsInRange (applyUpdates defaultHeuristics [(1, -50), (0, 2), (3, -1)]) ∧
      (1 ≤ 1 ∧ (iterUpdate defaultHeuristics 0 1000000 1).w_right = 3) :=
  ⟨update_heuristic_bounds_and_saturation.1 [(1, -50), (0, 2), (3, -1)],
    ⟨le_refl 1, update_heuristic_bounds_and_saturation.2 1 (le_refl 1)⟩⟩

/-! Navigator decision scoring (Navigator.cpp, score_for). -/

/-- Possible robot action, from enum class Action (Navigator.hpp). -/
inductive Action where
  | Right
  | Forward
  | Left
  | Back
deriving DecidableEq, Repr

/-- Discretised sensor readings, from struct SensorRead (Navigator.hpp). -/
structure SensorRead where
  left_free : Bool
  front_free : Bool
  right_free : Bool
deriving DecidableEq, Repr

/-- Base weight picked by score_for: the action's heuristic weight when the
corresponding direction is free, else 0.1; for Back, w_back when no direction is
free, else 0.2 (switch statement of Navigator::score_for). -/
def scoreBase (heur : Heuristics) (a : Action) (sr : SensorRead) : ℚ :=
  match a with
  | .Right => if sr.right_free then heur.w_right else 1/10
  | .Forward => if sr.front_free then heur.w_front else 1/10
  | .Left => if sr.left_free then heur.w_left else 1/10
  | .Back => if !sr.left_free && !sr.front_free && !sr.right_free then heur.w_back else 1/5

/-- Navigator::score_for (Navigator.cpp 16-30).  The float arithmetic is modelled
exactly over the rationals: score = (base/3)*10, clamped into 0..10 by the two
sequential if statements and by the ternary, then converted to uint8_t.  The
uint8_t conversion of a nonnegative float truncates toward zero, i.e. takes the
floor; the result is at most 10 so no wrap-around occurs. -/
def score_for (heur : Heuristics) (a : Action) (sr : SensorRead) : ℕ :=
  let base : ℚ := scoreBase heur a sr
  let score : ℚ := base / 3 * 10
  let score1 : ℚ := if score < 0 then 0 else score
  let score2 : ℚ := if score1 > 10 then 10 else score1
  (Int.floor (if score2 > 10 then (10 : ℚ) else if score2 < 0 then 0 else score2)).toNat

/-- Score formula exactly as claim C4 words it (clamp_int(round((base/3.0)*10),
0, 10)), to be compared against the source's score_for. -/
def score_for_claimed (heur : Heuristics) (a : Action) (sr : SensorRead) : ℤ :=
  max 0 (min 10 (round (scoreBase heur a sr / 3 * 10)))

/-- Truncating counterpart of score_for_claimed: what the source actually
computes (floor instead of round). -/
def score_for_trunc (heur : Heuristics) (a : Action) (sr : SensorRead) : ℤ :=
  max 0 (min 10 (Int.floor (scoreBase heur a sr / 3 * 10)))

/-- Whether the direction relevant to the action is free, together with the
0.3 weight threshold of the amended claim C4. -/
def RelevantFreeWeight (heur : Heuristics) (a : Action) (sr : SensorRead) : Prop :=
  match a with
  | .Right => sr.right_free = true ∧ 3/10 ≤ heur.w_right
  | .Forward => sr.front_free = true ∧ 3/10 ≤ heur.w_front
  | .Left => sr.left_free = true ∧ 3/10 ≤ heur.w_left
  | .Back => (sr.left_free = false ∧ sr.front_free = false ∧ sr.right_free = false) ∧
      3/10 ≤ heur.w_back

theorem score_for_eq_max_min_floor (heur : Heuristics) (a : Action) (sr : SensorRead) :
    (score_for heur a sr : ℤ) = score_for_trunc heur a sr := by
  unfold score_for score_for_trunc
  dsimp only
  set q : ℚ := scoreBase heur a sr / 3 * 10 with hq
  by_cases h0 : q < 0
  · rw [if_pos h0]
    have hfloor : Int.floor q ≤ -1 := by
      have : Int.floor q < 0 := Int.floor_lt.mpr (by simpa using h0)
      omega
    rw [if_neg (by norm_num : ¬ (0 : ℚ) > 10), if_neg (by norm_num : ¬ (0 : ℚ) < 0),
      if_neg (by norm_num : ¬ (0 : ℚ) > 10)]
    rw [show Int.floor (0 : ℚ) = 0 from Int.floor_intCast 0]
    have : min 10 (Int.floor q) ≤ -1 := le_trans (min_le_right _ _) hfloor
    omega
  · rw [if_neg h0]
    push_neg at h0
    by_cases h10 : q > 10
    · rw [if_pos h10, if_neg (by norm_num : ¬ (10 : ℚ) > 10), if_neg (by norm_num : ¬ (10 : ℚ) < 0)]
      have hfq : 10 ≤ Int.floor q := by
        have : ((10 : ℤ) : ℚ) ≤ q := by exact_mod_cast le_of_lt h10
        exact Int.le_floor.mpr this
      rw [show Int.floor ((10 : ℚ)) = 10 from by exact_mod_cast Int.floor_intCast 10]
      have : min 10 (Int.floor q) = 10 := min_eq_left hfq
      omega
    · rw [if_neg h10, if_neg h10, if_neg (not_lt.mpr h0)]
      push_neg at h10
      have hf0 : 0 ≤ Int.floor q := Int.floor_nonneg.mpr h0
      have hf10 : Int.floor q ≤ 10 := by
        have : Int.floor q ≤ Int.floor (10 : ℚ) := Int.floor_le_floor h10
        simpa using this
      rw [Int.toNat_of_nonneg hf0]
      have : min 10 (Int.floor q) = Int.floor q := min_eq_right hf10
      omega

/-- Claim C4, amended: score_for equals clamp_int of the TRUNCATED (base/3)*10
(the uint8_t cast truncates; the spec's round is off by one in 0.5..1 fractional
band), the result lies in 0..10, and it is at least 1 whenever the relevant
direction is free and the weight is at least 0.3 (not 0.2: weight 0.2 gives
(0.2/3)*10 = 2/3 which truncates to 0). -/
theorem score_for_trunc_bounds :
    ∀ (heur : Heuristics) (a : Action) (sr : SensorRead),
      (score_for heur a sr : ℤ) = score_for_trunc heur a sr ∧
        score_for heur a sr ≤ 10 ∧
        (RelevantFreeWeight heur a sr → 1 ≤ score_for heur a sr) := by
  intro heur a sr
  have heq := score_for_eq_max_min_floor heur a sr
  refine ⟨heq, ?_, ?_⟩
  · have : score_for_trunc heur a sr ≤ 10 := by
      unfold score_for_trunc
      have : min 10 (Int.floor (scoreBase heur a sr / 3 * 10)) ≤ 10 := min_le_left _ _
      omega
    omega
  · intro hrel
    have hbase : 3/10 ≤ scoreBase heur a sr := by
      unfold RelevantFreeWeight at hrel
      unfold scoreBase
      cases a
      · rw [hrel.1, if_pos rfl]
        exact hrel.2
      · rw [hrel.1, if_pos rfl]
        exact hrel.2
      · rw [hrel.1, if_pos rfl]
        exact hrel.2
      · obtain ⟨⟨hl, hf, hr⟩, hw⟩ := hrel
        rw [hl, hf, hr]
        simpa using hw
    have hfq : 1 ≤ Int.floor (scoreBase heur a sr / 3 * 10) := by
      apply Int.le_floor.mpr
      push_cast
      nlinarith [hbase]
    have : 1 ≤ score_for_trunc heur a sr := by
      unfold score_for_trunc
      have h1 : (1 : ℤ) ≤ min 10 (Int.floor (scoreBase heur a sr / 3 * 10)) :=
        le_min (by norm_num) hfq
      omega
    omega

/-- Concrete weights exhibiting the round/truncate difference: w_right = 0.2. -/
def lowRightHeur : Heuristics :=
  { w_right := 1/5, w_front := 1, w_left := 1, w_back := 1 }

/-- Sensor reading with all three directions free. -/
def allFree : SensorRead :=
  { left_free := true, front_free := true, right_free := true }

/-- Counterexample to claim C4 as stated: with right free and w_right = 0.2,
the claimed formula clamp_int(round((0.2/3)*10), 0, 10) yields 1, but
Navigator::score_for yields 0 (the uint8_t cast truncates 2/3 to 0); so the
claimed equation and the claimed one-lower-bound at weight 0.2 both fail. -/
theorem score_for_round_counterexample :
    score_for lowRightHeur Action.Right allFree = 0 ∧
      score_for_claimed lowRightHeur Action.Right allFree = 1 ∧
      allFree.right_free = true ∧ (1/5 : ℚ) ≤ lowRightHeur.w_right ∧
      ¬ ((score_for lowRightHeur Action.Right allFree : ℤ) =
          score_for_claimed lowRightHeur Action.Right allFree) ∧
      ¬ (1 ≤ score_for lowRightHeur Action.Right allFree) := by
  have hbase : scoreBase lowRightHeur Action.Right allFree = 1/5 := by
    unfold scoreBase lowRightHeur allFree
    norm_num
  have hq : scoreBase lowRightHeur Action.Right allFree / 3 * 10 = 2/3 := by
    rw [hbase]
    norm_num
  have hfloor : Int.floor ((2 : ℚ)/3) = 0 := by
    (rw [Int.floor_eq_iff]; norm_num)
  have hround : round ((2 : ℚ)/3) = 1 := by
    rw [round_eq]
    rw [show (2 : ℚ)/3 + 1/2 = 7/6 by norm_num]
    (rw [Int.floor_eq_iff]; norm_num)
  have h1 : score_for lowRightHeur Action.Right allFree = 0 := by
    unfold score_for
    dsimp only
    rw [hq]
    rw [if_neg (by norm_num : ¬ (2/3 : ℚ) < 0)]
    rw [if_neg (by norm_num : ¬ (2/3 : ℚ) > 10)]
    rw [if_neg (by norm_num : ¬ (2/3 : ℚ) > 10)]
    rw [if_neg (by norm_num : ¬ (2/3 : ℚ) < 0)]
    rw [hfloor]
    rfl
  have h2 : score_for_claimed lowRightHeur Action.Right allFree = 1 := by
    unfold score_for_claimed
    rw [hq, hround]
    decide
  refine ⟨h1, h2, rfl, by norm_num [lowRightHeur], ?_, ?_⟩
  · rw [h1, h2]
    norm_num
  · rw [h1]
    norm_num

/-- Concrete instantiation of score_for_trunc_bounds: default weights, forward
free, score is 3 which is at least 1 and at most 10. -/
theorem score_for_trunc_bounds_witness :
    RelevantFreeWeight defaultHeuristics Action.Forward allFree ∧
      1 ≤ score_for defaultHeuristics Action.Forward allFree :=
  ⟨⟨rfl, by norm_num [defaultHeuristics]⟩,
    (score_for_trunc_bounds defaultHeuristics Action.Forward allFree).2.2
      ⟨rfl, by norm_num [defaultHeuristics]⟩⟩

/-! Planner: BFS shortest path (Planner.hpp). -/

/-- Row-major linear index y*w + x, as computed by the idx lambdas of
Planner::bfs_path and Navigator. -/
def idxP (m : MazeMap) (p : Point) : Int :=
  p.y * m.w + p.x

/-- Inverse of idxP during path reconstruction: cur % w and cur / w.  The C++
operators truncate toward zero; all reconstructed indices are nonnegative and w
is positive there, where truncation and Euclidean division agree. -/
def decodeIdx (m : MazeMap) (i : Int) : Point :=
  { x := i % m.w, y := i / m.w }

theorem idxP_nonneg (m : MazeMap) (p : Point) (hb : m.in_bounds p.x p.y = true) :
    0 ≤ idxP m p := by
  rw [MazeMap.in_bounds_iff] at hb
  obtain ⟨hx0, hy0, hxw, _⟩ := hb
  unfold idxP
  have : 0 ≤ p.y * m.w := mul_nonneg hy0 (le_trans hx0 (le_of_lt hxw))
  omega

theorem idxP_lt (m : MazeMap) (p : Point) (hb : m.in_bounds p.x p.y = true) :
    idxP m p < m.w * m.h := by
  rw [MazeMap.in_bounds_iff] at hb
  obtain ⟨hx0, hy0, hxw, hyh⟩ := hb
  unfold idxP
  have h1 : p.y * m.w + p.x < (p.y + 1) * m.w := by
    have : (p.y + 1) * m.w = p.y * m.w + m.w := by ring
    omega
  have h2 : (p.y + 1) * m.w ≤ m.h * m.w := by
    apply mul_le_mul_of_nonneg_right (by omega) (le_trans hx0 (le_of_lt hxw))
  have h3 : m.h * m.w = m.w * m.h := by ring
  omega

theorem decode_idxP (m : MazeMap) (p : Point) (hb : m.in_bounds p.x p.y = true) :
    decodeIdx m (idxP m p) = p := by
  rw [MazeMap.in_bounds_iff] at hb
  obtain ⟨hx0, hy0, hxw, _⟩ := hb
  have hw : (0 : Int) < m.w := lt_of_le_of_lt hx0 hxw
  unfold decodeIdx idxP
  have hmod : (p.y * m.w + p.x) % m.w = p.x := by
    rw [show p.y * m.w + p.x = p.x + m.w * p.y by ring, Int.add_mul_emod_self_left,
      Int.emod_eq_of_lt hx0 hxw]
  have hdiv : (p.y * m.w + p.x) / m.w = p.y := by
    rw [show p.y * m.w + p.x = p.x + p.y * m.w by ring,
      Int.add_mul_ediv_right _ _ (ne_of_gt hw), Int.ediv_eq_zero_of_lt hx0 hxw]
    omega
  rw [hmod, hdiv]

/-- BFS working state: the visited flags, the predecessor table (-1 when unset)
and the FIFO queue of Planner::bfs_path.  The two vectors of size w*h are
modelled as total functions on the linear index. -/
structure BfsSt where
  visited : Int → Bool
  prev : Int → Int
  queue : List Point

/-- One neighbour test of the BFS loop body: when the wall toward q is absent
and q is in bounds and not yet visited, mark it, record the predecessor and
enqueue it. -/
def tryStep (m : MazeMap) (pIdx : Int) (wallAbsent : Bool) (q : Point) (st : BfsSt) : BfsSt :=
  if wallAbsent && m.in_bounds q.x q.y then
    let j := idxP m q
    if ! st.visited j then
      { visited := fun k => if k = j then true else st.visited k,
        prev := fun k => if k = j then pIdx else st.prev k,
        queue := st.queue ++ [q] }
    else st
  else st

/-- One dequeued cell's expansion: the four neighbour tests in the fixed source
order N, E, S, W, reading the cell's walls once. -/
def expand (m : MazeMap) (p : Point) (st : BfsSt) : BfsSt :=
  let c := m.grid p.x p.y
  let pi := idxP m p
  let st1 := tryStep m pi (! c.wall_n) { x := p.x, y := p.y - 1 } st
  let st2 := tryStep m pi (! c.wall_e) { x := p.x + 1, y := p.y } st1
  let st3 := tryStep m pi (! c.wall_s) { x := p.x, y := p.y + 1 } st2
  tryStep m pi (! c.wall_w) { x := p.x - 1, y := p.y } st3

/-- The BFS work-list loop.  The source loop runs until the queue empties or the
goal is dequeued; each iteration dequeues one point, and at most w*h points are
ever enqueued (each enqueue marks a distinct cell visited), so fuel w*h makes
the fuel recursion agree with the source loop. -/
def bfsLoop (m : MazeMap) (goal : Point) : ℕ → BfsSt → BfsSt
  | 0, st => st
  | n + 1, st =>
    match st.queue with
    | [] => st
    | p :: rest =>
      if p = goal then { st with queue := rest }
      else bfsLoop m goal n (expand m p { st with queue := rest })

/-- Predecessor-chain walk of the reconstruction for-loop: cur starts at the
goal index, stops on -1 or after pushing the start index; each step follows
prev.  Fuel w*h + 1 dominates the chain length, which is bounded by the number
of visited cells. -/
def reconChain (prev : Int → Int) (sIdx : Int) : ℕ → Int → List Int
  | 0, _ => []
  | n + 1, cur =>
    if cur = -1 then []
    else if cur = sIdx then [cur]
    else cur :: reconChain prev sIdx n (prev cur)

/-- Planner::bfs_path (Planner.hpp 29-69). -/
def bfs_path (m : MazeMap) (start goal : Point) : Option (List Point) :=
  if m.in_bounds start.x start.y && m.in_bounds goal.x goal.y then
    let fuel := (m.w * m.h).toNat
    let st0 : BfsSt :=
      { visited := fun k => if k = idxP m start then true else false,
        prev := fun _ => -1,
        queue := [start] }
    let stF := bfsLoop m goal fuel st0
    if stF.visited (idxP m goal) then
      some (((reconChain stF.prev (idxP m start) (fuel + 1) (idxP m goal)).map
        (decodeIdx m)).reverse)
    else none
  else none

/-- Claim C10: BFS with start = goal returns the singleton path, whatever the
walls are: the first dequeued point is the goal, so the loop breaks immediately
and the reconstruction emits exactly the start index. -/
theorem bfs_path_self (m : MazeMap) (p : Point) (hb : m.in_bounds p.x p.y = true) :
    bfs_path m p p = some [p] := by
  have hw : (0 : Int) < m.w := by
    rw [MazeMap.in_bounds_iff] at hb
    omega
  have hh : (0 : Int) < m.h := by
    rw [MazeMap.in_bounds_iff] at hb
    omega
  have hfuel : 1 ≤ (m.w * m.h).toNat := by
    have : (0 : Int) < m.w * m.h := mul_pos hw hh
    omega
  obtain ⟨n, hn⟩ : ∃ n, (m.w * m.h).toNat = n + 1 := ⟨(m.w * m.h).toNat - 1, by omega⟩
  have hnn : 0 ≤ idxP m p := idxP_nonneg m p hb
  unfold bfs_path
  rw [hb]
  dsimp only [Bool.true_and]
  rw [hn]
  have hloop :
      bfsLoop m p (n + 1)
          { visited := fun k => if k = idxP m p then true else false,
            prev := fun _ => -1, queue := [p] } =
        { visited := fun k => if k = idxP m p then true else false,
          prev := fun _ => -1, queue := [] } := by
    unfold bfsLoop
    dsimp only
    rw [if_pos rfl]
  rw [hloop]
  dsimp only
  rw [if_pos rfl]
  have hrec : reconChain (fun _ => (-1 : Int)) (idxP m p) (n + 1 + 1) (idxP m p) = [idxP m p] := by
    unfold reconChain
    rw [if_neg (by omega : ¬ idxP m p = -1), if_pos rfl]
  rw [hrec]
  simp only [List.map_cons, List.map_nil, List.reverse_cons, List.reverse_nil, List.nil_append]
  rw [decode_idxP m p hb]
  simp

/-- Concrete instantiation of bfs_path_self on a fully walled 1x1 maze. -/
theorem bfs_path_self_witness :
    bfs_path (mkMazeMap 1 1) { x := 0, y := 0 } { x := 0, y := 0 } =
      some [{ x := 0, y := 0 }] :=
  bfs_path_self (mkMazeMap 1 1) { x := 0, y := 0 } (by decide)

/-- One legal BFS move from a to b: the two points differ by exactly one in
exactly one axis and the wall of a facing b is recorded absent (the source
tests the wall bit on the dequeued cell's side). -/
def moveOk (m : MazeMap) (a b : Point) : Prop :=
  (b.x = a.x ∧ b.y = a.y - 1 ∧ (m.grid a.x a.y).wall_n = false) ∨
    (b.x = a.x + 1 ∧ b.y = a.y ∧ (m.grid a.x a.y).wall_e = false) ∨
    (b.x = a.x ∧ b.y = a.y + 1 ∧ (m.grid a.x a.y).wall_s = false) ∨
    (b.x = a.x - 1 ∧ b.y = a.y ∧ (m.grid a.x a.y).wall_w = false)

theorem moveOk_ne (m : MazeMap) (a b : Point) (h : moveOk m a b) : a ≠ b := by
  intro he
  subst he
  rcases h with ⟨-, h2, -⟩ | ⟨h2, -, -⟩ | ⟨-, h2, -⟩ | ⟨h2, -, -⟩ <;> omega

/-- A recorded predecessor edge between two linear indices: both decode to
in-bounds points joined by a legal BFS move. -/
def edgeOk (m : MazeMap) (i j : Int) : Prop :=
  m.in_bounds (decodeIdx m i).x (decodeIdx m i).y = true ∧
    m.in_bounds (decodeIdx m j).x (decodeIdx m j).y = true ∧
    moveOk m (decodeIdx m i) (decodeIdx m j)

theorem indexOf_append_left {l1 : List Int} (l2 : List Int) {a : Int} (h : a ∈ l1) :
    (l1 ++ l2).indexOf a = l1.indexOf a := by
  induction l1 with
  | nil => cases h
  | cons x xs ih =>
    rw [List.cons_append, List.indexOf_cons, List.indexOf_cons]
    cases hxa : x == a
    · have hmem : a ∈ xs := by
        rcases List.mem_cons.mp h with he | hm
        · exfalso
          rw [he, beq_self_eq_true] at hxa
          cases hxa
        · exact hm
      simp [ih hmem]
    · simp

theorem indexOf_append_self {l : List Int} {a : Int} (h : a ∉ l) :
    (l ++ [a]).indexOf a = l.length := by
  induction l with
  | nil => simp [List.indexOf_cons]
  | cons x xs ih =>
    have hxa : (x == a) = false := by
      rw [beq_eq_false_iff_ne]
      intro he
      exact h (by rw [← he]; exact List.mem_cons_self x xs)
    rw [List.cons_append, List.indexOf_cons, hxa]
    simp [ih (fun hm => h (List.mem_cons_of_mem _ hm))]

theorem nodup_append_singleton {l : List Int} {a : Int} (h1 : l.Nodup) (h2 : a ∉ l) :
    (l ++ [a]).Nodup := by
  refine List.Nodup.append h1 (List.nodup_singleton a) ?_
  intro b hb hba
  rw [List.mem_singleton] at hba
  exact h2 (hba ▸ hb)

/-- A Nodup list of integers all lying in 0 .. N-1 has at most N.toNat entries. -/
theorem nodup_range_length {l : List Int} (N : Int) (hnd : l.Nodup)
    (hmem : ∀ j ∈ l, 0 ≤ j ∧ j < N) : l.length ≤ N.toNat := by
  have hinj : ∀ a ∈ l, ∀ b ∈ l, a.toNat = b.toNat → a = b := by
    intro a ha b hb hab
    have h1 := (hmem a ha).1
    have h2 := (hmem b hb).1
    omega
  have hnd2 : (l.map Int.toNat).Nodup := List.Nodup.map_on hinj hnd
  have hsub : (l.map Int.toNat).toFinset ⊆ Finset.range N.toNat := by
    intro k hk
    rw [List.mem_toFinset, List.mem_map] at hk
    obtain ⟨a, ha, rfl⟩ := hk
    rw [Finset.mem_range]
    have := hmem a ha
    omega
  have hcard := Finset.card_le_card hsub
  rw [List.toFinset_card_of_nodup hnd2, Finset.card_range] at hcard
  simpa using hcard

/-- BFS loop invariant, witnessed by the discovery order of the visited cells:
order is duplicate-free, lists exactly the visited linear indices (all in
range), contains the start, and every visited cell other than the start has a
predecessor discovered strictly earlier and joined by a recorded edge; queued
points are in bounds and visited. -/
structure BfsInvH (m : MazeMap) (start : Point) (st : BfsSt) (order : List Int) : Prop where
  nodup : order.Nodup
  mem_range : ∀ j ∈ order, 0 ≤ j ∧ j < m.w * m.h
  visited_iff : ∀ j, st.visited j = true ↔ j ∈ order
  start_mem : idxP m start ∈ order
  prev_chain : ∀ j ∈ order, j ≠ idxP m start →
    st.prev j ∈ order ∧ order.indexOf (st.prev j) < order.indexOf j ∧ edgeOk m (st.prev j) j
  queue_ok : ∀ p ∈ st.queue, m.in_bounds p.x p.y = true ∧ idxP m p ∈ order

theorem tryStep_inv (m : MazeMap) (start : Point) (st : BfsSt) (order : List Int)
    (inv : BfsInvH m start st order) (p : Point)
    (hp_in : m.in_bounds p.x p.y = true) (hp_mem : idxP m p ∈ order)
    (wallAbsent : Bool) (q : Point)
    (hmv : wallAbsent = true → m.in_bounds q.x q.y = true → moveOk m p q) :
    ∃ order2, order <+: order2 ∧
      BfsInvH m start (tryStep m (idxP m p) wallAbsent q st) order2 := by
  unfold tryStep
  by_cases hg : (wallAbsent && m.in_bounds q.x q.y) = true
  · rw [if_pos hg]
    dsimp only
    rw [Bool.and_eq_true] at hg
    obtain ⟨hwa, hqin⟩ := hg
    cases hv : st.visited (idxP m q) with
    | true =>
      rw [if_neg (by decide)]
      exact ⟨order, List.prefix_refl order, inv⟩
    | false =>
      rw [if_pos (by decide)]
      have hfresh : idxP m q ∉ order := by
        intro hmem
        rw [← inv.visited_iff (idxP m q)] at hmem
        rw [hv] at hmem
        cases hmem
      refine ⟨order ++ [idxP m q], List.prefix_append order [idxP m q], ?_⟩
      refine ⟨nodup_append_singleton inv.nodup hfresh, ?_, ?_, ?_, ?_, ?_⟩
      · intro k hk
        rcases List.mem_append.mp hk with hko | hkj
        · exact inv.mem_range k hko
        · rw [List.mem_singleton] at hkj
          subst hkj
          exact ⟨idxP_nonneg m q hqin, idxP_lt m q hqin⟩
      · intro k
        dsimp only
        by_cases hk : k = idxP m q
        · subst hk
          simp [List.mem_append]
        · rw [if_neg hk, inv.visited_iff k]
          rw [List.mem_append, List.mem_singleton]
          exact ⟨Or.inl, fun h => h.elim id (fun he => absurd he hk)⟩
      · exact List.mem_append.mpr (Or.inl inv.start_mem)
      · intro k hk hkst
        dsimp only
        rcases List.mem_append.mp hk with hko | hkj
        · have hkj2 : k ≠ idxP m q := fun he => hfresh (he ▸ hko)
          rw [if_neg hkj2]
          obtain ⟨c1, c2, c3⟩ := inv.prev_chain k hko hkst
          refine ⟨List.mem_append.mpr (Or.inl c1), ?_, c3⟩
          rw [indexOf_append_left [idxP m q] c1, indexOf_append_left [idxP m q] hko]
          exact c2
        · rw [List.mem_singleton] at hkj
          subst hkj
          rw [if_pos rfl]
          refine ⟨List.mem_append.mpr (Or.inl hp_mem), ?_, ?_⟩
          · rw [indexOf_append_left [idxP m q] hp_mem, indexOf_append_self hfresh]
            exact List.indexOf_lt_length.mpr hp_mem
          · unfold edgeOk
            rw [decode_idxP m p hp_in, decode_idxP m q hqin]
            exact ⟨hp_in, hqin, hmv hwa hqin⟩
      · intro r hr
        dsimp only at hr
        rcases List.mem_append.mp hr with hro | hrq
        · obtain ⟨r1, r2⟩ := inv.queue_ok r hro
          exact ⟨r1, List.mem_append.mpr (Or.inl r2)⟩
        · rw [List.mem_singleton] at hrq
          subst hrq
          exact ⟨hqin, List.mem_append.mpr (Or.inr (List.mem_singleton.mpr rfl))⟩
  · rw [if_neg hg]
    exact ⟨order, List.prefix_refl order, inv⟩

theorem expand_inv (m : MazeMap) (start : Point) (st : BfsSt) (order : List Int)
    (inv : BfsInvH m start st order) (p : Point)
    (hp_in : m.in_bounds p.x p.y = true) (hp_mem : idxP m p ∈ order) :
    ∃ order2, order <+: order2 ∧ BfsInvH m start (expand m p st) order2 := by
  unfold expand
  obtain ⟨o1, hpre1, inv1⟩ :=
    tryStep_inv m start st order inv p hp_in hp_mem
      (! (m.grid p.x p.y).wall_n) { x := p.x, y := p.y - 1 }
      (fun hw _ => Or.inl ⟨rfl, rfl, by rwa [Bool.not_eq_true'] at hw⟩)
  obtain ⟨o2, hpre2, inv2⟩ :=
    tryStep_inv m start _ o1 inv1 p hp_in (hpre1.subset hp_mem)
      (! (m.grid p.x p.y).wall_e) { x := p.x + 1, y := p.y }
      (fun hw _ => Or.inr (Or.inl ⟨rfl, rfl, by rwa [Bool.not_eq_true'] at hw⟩))
  obtain ⟨o3, hpre3, inv3⟩ :=
    tryStep_inv m start _ o2 inv2 p hp_in (hpre2.subset (hpre1.subset hp_mem))
      (! (m.grid p.x p.y).wall_s) { x := p.x, y := p.y + 1 }
      (fun hw _ => Or.inr (Or.inr (Or.inl ⟨rfl, rfl, by rwa [Bool.not_eq_true'] at hw⟩)))
  obtain ⟨o4, hpre4, inv4⟩ :=
    tryStep_inv m start _ o3 inv3 p hp_in (hpre3.subset (hpre2.subset (hpre1.subset hp_mem)))
      (! (m.grid p.x p.y).wall_w) { x := p.x - 1, y := p.y }
      (fun hw _ => Or.inr (Or.inr (Or.inr ⟨rfl, rfl, by rwa [Bool.not_eq_true'] at hw⟩)))
  exact ⟨o4, hpre1.trans (hpre2.trans (hpre3.trans hpre4)), inv4⟩

theorem bfsLoop_inv (m : MazeMap) (goal start : Point) :
    ∀ (fuel : ℕ) (st : BfsSt) (order : List Int), BfsInvH m start st order →
      ∃ order2, BfsInvH m start (bfsLoop m goal fuel st) order2 := by
  intro fuel
  induction fuel with
  | zero => exact fun st order inv => ⟨order, inv⟩
  | succ n ih =>
    intro st order inv
    unfold bfsLoop
    cases hq : st.queue with
    | nil => exact ⟨order, inv⟩
    | cons p rest =>
      dsimp only
      have hrest : BfsInvH m start { st with queue := rest } order := by
        refine ⟨inv.nodup, inv.mem_range, inv.visited_iff, inv.start_mem, inv.prev_chain, ?_⟩
        intro r hr
        exact inv.queue_ok r (by rw [hq]; exact List.mem_cons_of_mem _ hr)
      by_cases hpg : p = goal
      · rw [if_pos hpg]
        exact ⟨order, hrest⟩
      · rw [if_neg hpg]
        obtain ⟨hp_in, hp_mem⟩ := inv.queue_ok p (by rw [hq]; exact List.mem_cons_self p rest)
        obtain ⟨o2, _, inv2⟩ := expand_inv m start _ order hrest p hp_in hp_mem
        exact ih _ o2 inv2

/-- Walking the predecessor table from any visited index, with fuel exceeding
its discovery position, yields a nonempty chain from that index down to the
start index in which every consecutive pair is a recorded BFS edge. -/
theorem reconChain_spec (m : MazeMap) (start : Point) (st : BfsSt) (order : List Int)
    (inv : BfsInvH m start st order) :
    ∀ (n : ℕ) (j : Int), j ∈ order → order.indexOf j < n →
      reconChain st.prev (idxP m start) n j ≠ [] ∧
        (reconChain st.prev (idxP m start) n j).head? = some j ∧
        (reconChain st.prev (idxP m start) n j).getLast? = some (idxP m start) ∧
        List.Chain' (fun u v => edgeOk m v u) (reconChain st.prev (idxP m start) n j) := by
  intro n
  induction n with
  | zero =>
    intro j _ hlt
    omega
  | succ k ih =>
    intro j hj hlt
    have hj0 : 0 ≤ j := (inv.mem_range j hj).1
    unfold reconChain
    rw [if_neg (by omega : ¬ j = -1)]
    by_cases hjs : j = idxP m start
    · rw [if_pos hjs]
      refine ⟨by simp, rfl, ?_, List.chain'_singleton j⟩
      simp [hjs]
    · rw [if_neg hjs]
      obtain ⟨c1, c2, c3⟩ := inv.prev_chain j hj hjs
      have hlt2 : order.indexOf (st.prev j) < k := by omega
      obtain ⟨ih1, ih2, ih3, ih4⟩ := ih (st.prev j) c1 hlt2
      obtain ⟨hd, tl, hL⟩ := List.exists_cons_of_ne_nil ih1
      have hhd : hd = st.prev j := by
        rw [hL] at ih2
        simpa using ih2
      refine ⟨by simp, rfl, ?_, ?_⟩
      · rw [hL, List.getLast?_cons_cons]
        rw [hL] at ih3
        exact ih3
      · rw [hL, List.chain'_cons]
        rw [hL] at ih4
        refine ⟨?_, ih4⟩
        rw [hhd]
        exact c3

/-- Claim C2: whenever Planner::bfs_path returns a path, the path is nonempty,
its first element is start, its last is goal, consecutive points differ by
exactly one in exactly one axis with the wall between them (read on the earlier
point's side, as the planner does) recorded absent, and no two consecutive
points are equal. -/
theorem bfs_path_sound (m : MazeMap) (start goal : Point) (path : List Point)
    (h : bfs_path m start goal = some path) :
    1 ≤ path.length ∧ path.head? = some start ∧ path.getLast? = some goal ∧
      List.Chain' (moveOk m) path ∧ List.Chain' (fun a b => a ≠ b) path := by
  unfold bfs_path at h
  by_cases hb : (m.in_bounds start.x start.y && m.in_bounds goal.x goal.y) = true
  · rw [if_pos hb] at h
    dsimp only at h
    rw [Bool.and_eq_true] at hb
    obtain ⟨hbs, hbg⟩ := hb
    have inv0 : BfsInvH m start
        { visited := fun k => if k = idxP m start then true else false,
          prev := fun _ => -1, queue := [start] } [idxP m start] := by
      refine ⟨List.nodup_singleton _, ?_, ?_, List.mem_singleton.mpr rfl, ?_, ?_⟩
      · intro j hj
        rw [List.mem_singleton] at hj
        subst hj
        exact ⟨idxP_nonneg m start hbs, idxP_lt m start hbs⟩
      · intro j
        dsimp only
        by_cases hj : j = idxP m start
        · simp [hj]
        · rw [if_neg hj]
          simp [hj]
      · intro j hj hjs
        rw [List.mem_singleton] at hj
        exact absurd hj hjs
      · intro r hr
        rw [List.mem_singleton] at hr
        subst hr
        exact ⟨hbs, List.mem_singleton.mpr rfl⟩
    obtain ⟨order, invF⟩ := bfsLoop_inv m goal start ((m.w * m.h).toNat) _ _ inv0
    by_cases hv : (bfsLoop m goal ((m.w * m.h).toNat)
        { visited := fun k => if k = idxP m start then true else false,
          prev := fun _ => -1, queue := [start] }).visited (idxP m goal) = true
    · rw [if_pos hv] at h
      injection h with h
      have hgmem : idxP m goal ∈ order := (invF.visited_iff _).mp hv
      have hidx : order.indexOf (idxP m goal) < (m.w * m.h).toNat + 1 := by
        have h1 : order.indexOf (idxP m goal) < order.length :=
          List.indexOf_lt_length.mpr hgmem
        have h2 : order.length ≤ (m.w * m.h).toNat :=
          nodup_range_length (m.w * m.h) invF.nodup invF.mem_range
        omega
      obtain ⟨hne, hhd, hlast, hchain⟩ :=
        reconChain_spec m start _ order invF ((m.w * m.h).toNat + 1) (idxP m goal) hgmem hidx
      rw [← h]
      refine ⟨?_, ?_, ?_, ?_, ?_⟩
      · rw [List.length_reverse, List.length_map]
        have := List.length_pos.mpr hne
        omega
      · rw [List.head?_reverse, List.getLast?_map, hlast]
        dsimp only [Option.map_some']
        rw [decode_idxP m start hbs]
      · rw [List.getLast?_reverse, List.head?_map, hhd]
        dsimp only [Option.map_some']
        rw [decode_idxP m goal hbg]
      · rw [List.chain'_reverse, List.chain'_map]
        exact hchain.imp (fun a b hr => hr.2.2)
      · rw [List.chain'_reverse, List.chain'_map]
        exact hchain.imp (fun a b hr => moveOk_ne m _ _ hr.2.2)
    · rw [if_neg hv] at h
      cases h
  · rw [if_neg hb] at h
    cases h

/-- Path produced by BFS on a blank 2x2 maze from (0,0) to (1,1). -/
def demoPath : List Point :=
  [{ x := 0, y := 0 }, { x := 1, y := 0 }, { x := 1, y := 1 }]

/-- Concrete instantiation of bfs_path_sound: the 2x2 blank maze from (0,0) to
(1,1) yields the path (0,0) (1,0) (1,1), which satisfies all path properties. -/
theorem bfs_path_sound_witness :
    bfs_path (mkMazeMap 2 2) { x := 0, y := 0 } { x := 1, y := 1 } = some demoPath ∧
      (1 ≤ demoPath.length ∧ demoPath.head? = some { x := 0, y := 0 } ∧
        demoPath.getLast? = some { x := 1, y := 1 } ∧
        List.Chain' (moveOk (mkMazeMap 2 2)) demoPath ∧
        List.Chain' (fun a b => a ≠ b) demoPath) :=
  ⟨by decide,
    bfs_path_sound (mkMazeMap 2 2) { x := 0, y := 0 } { x := 1, y := 1 } demoPath (by decide)⟩

/-! Navigator decision core (Navigator.hpp / Navigator.cpp). -/

/-- Navigation strategy; the source currently has only RightHand. -/
inductive Strategy where
  | RightHand
deriving DecidableEq, Repr

/-- Decision produced by the navigator: an action and its 0..10 score. -/
structure Decision where
  action : Action
  score : ℕ
deriving DecidableEq, Repr

/-- Candidate record of Navigator::decidePlanned: relative action, visit count
of the target neighbour, and whether the move matches the plan's wanted
absolute direction. -/
structure Cand where
  a : Action
  seen : ℕ
  matches_plan : Bool
deriving DecidableEq, Repr

/-- Stable insertion of x: placed before the first element y with le x y.
Together with stableSort this computes the unique stable sort with respect to
the total preorder le, which is what std::stable_sort produces for the strict
weak ordering cmp when le a b = !cmp b a. -/
def stableInsert {α : Type} (le : α → α → Bool) (x : α) : List α → List α
  | [] => [x]
  | y :: ys => if le x y then x :: y :: ys else y :: stableInsert le x ys

/-- Stable sort by insertion (model of std::stable_sort, see stableInsert). -/
def stableSort {α : Type} (le : α → α → Bool) : List α → List α
  | [] => []
  | x :: xs => stableInsert le x (stableSort le xs)

/-- Navigator state (private members of class Navigator).  The visit counter
vector seen_ is a list of saturating byte counters indexed by y*w + x. -/
structure Navigator where
  strategy : Strategy
  map : MazeMap
  start : Point
  goal : Point
  has_goal : Bool
  plan : List Point
  heur : Heuristics
  seen : List ℕ

/-- Default-constructed Navigator: RightHand strategy, 1x1 map, no goal, empty
plan, default weights, empty visit counters. -/
def freshNavigator : Navigator :=
  { strategy := Strategy.RightHand, map := mkMazeMap 1 1, start := { x := 0, y := 0 },
    goal := { x := 0, y := 0 }, has_goal := false, plan := [],
    heur := defaultHeuristics, seen := [] }

/-- Navigator::decide (Navigator.cpp 41-51): strict right-hand priority. -/
def Navigator.decide (nav : Navigator) (sr : SensorRead) : Decision :=
  let a : Action :=
    match nav.strategy with
    | Strategy.RightHand =>
      if sr.right_free then Action.Right
      else if sr.front_free then Action.Forward
      else if sr.left_free then Action.Left
      else Action.Back
  { action := a, score := score_for nav.heur a sr }

/-- Navigator::planRoute (Navigator.cpp 95-101), returning the bool result
together with the updated navigator (plan_ is mutated in place in the source). -/
def Navigator.planRoute (nav : Navigator) : Bool × Navigator :=
  if ! nav.has_goal then (false, nav)
  else
    match bfs_path nav.map nav.start nav.goal with
    | none => (false, { nav with plan := [] })
    | some p => (! p.isEmpty, { nav with plan := p })

/-- The plan_wanted_abs lambda of Navigator::decidePlanned: the absolute
direction of the plan's next point after the first occurrence of current, or
the char X when there is no plan, no occurrence, or no successor. -/
def planWantedAbs (plan : List Point) (current : Point) : Char :=
  if plan.isEmpty then 'X'
  else
    match plan.findIdx? (fun pt => pt.x == current.x && pt.y == current.y) with
    | none => 'X'
    | some i =>
      match plan[i + 1]? with
      | none => 'X'
      | some next =>
        if next.x = current.x ∧ next.y = current.y - 1 then 'N'
        else if next.x = current.x + 1 ∧ next.y = current.y then 'E'
        else if next.x = current.x ∧ next.y = current.y + 1 then 'S'
        else if next.x = current.x - 1 ∧ next.y = current.y then 'W'
        else 'X'

/-- The rel_to_abs lambda: relative direction (0=Left, 1=Front, 2=Right) to
absolute char given the heading (0=N, 1=E, 2=S, 3=W; the & 3 masks of the
source become % 4). -/
def relToAbs (heading rel : ℕ) : Char :=
  let d := if rel = 0 then (heading + 3) % 4 else if rel = 1 then heading % 4 else (heading + 1) % 4
  (['N', 'E', 'S', 'W'].getD d 'X')

/-- Candidate built by the push_cand lambda for one relative direction: the
absolute char, the neighbour coordinates, the visit count (255 when the seen
vector is empty or the neighbour is out of bounds) and the plan-match flag. -/
def mkCand (nav : Navigator) (current : Point) (heading : ℕ) (pwa : Char) (rel : ℕ) : Cand :=
  let abs := relToAbs heading rel
  let nx := if abs = 'E' then current.x + 1 else if abs = 'W' then current.x - 1 else current.x
  let ny := if abs = 'N' then current.y - 1 else if abs = 'S' then current.y + 1 else current.y
  let s : ℕ :=
    if (! nav.seen.isEmpty) && nav.map.in_bounds nx ny then
      nav.seen.getD (idxP nav.map { x := nx, y := ny }).toNat 255
    else 255
  { a := if rel = 0 then Action.Left else if rel = 1 then Action.Forward else Action.Right,
    seen := s, matches_plan := decide (abs = pwa) }

/-- The push_cand lambda: skip when the free flag is false. -/
def pushCand (nav : Navigator) (current : Point) (heading : ℕ) (pwa : Char)
    (rel : ℕ) (free_flag : Bool) : List Cand :=
  if ! free_flag then [] else [mkCand nav current heading pwa rel]

/-- The comparator passed to std::stable_sort in Navigator::decidePlanned:
unseen (seen == 0) first, then smaller seen, then matches_plan, then larger
score_for. -/
def cmpLt (heur : Heuristics) (sr : SensorRead) (a b : Cand) : Bool :=
  let au := decide (a.seen = 0)
  let bu := decide (b.seen = 0)
  if au ≠ bu then au
  else if a.seen ≠ b.seen then decide (a.seen < b.seen)
  else if a.matches_plan ≠ b.matches_plan then a.matches_plan
  else decide (score_for heur b.a sr < score_for heur a.a sr)

/-- Navigator::decidePlanned (Navigator.cpp 115-178). -/
def Navigator.decidePlanned (nav : Navigator) (current : Point) (heading : ℕ)
    (sr : SensorRead) : Decision :=
  let pwa := planWantedAbs nav.plan current
  let cands :=
    pushCand nav current heading pwa 0 sr.left_free ++
      pushCand nav current heading pwa 1 sr.front_free ++
        pushCand nav current heading pwa 2 sr.right_free
  if cands.isEmpty then
    { action := Action.Back, score := score_for nav.heur Action.Back sr }
  else
    let sorted := stableSort (fun a b => ! cmpLt nav.heur sr b a) cands
    let chosen := (sorted.headD { a := Action.Back, seen := 0, matches_plan := false }).a
    { action := chosen, score := score_for nav.heur chosen sr }

/-- Lexicographic sort key described by claim C1: seen == 0 first, then smaller
seen, then matches_plan, then larger score (encoded by the negated score so
that the key is compared ascending). -/
def specKey (heur : Heuristics) (sr : SensorRead) (c : Cand) : ℕ × ℕ × ℕ × ℤ :=
  (if c.seen = 0 then 0 else 1, c.seen, if c.matches_plan then 0 else 1,
    -(score_for heur c.a sr : ℤ))

/-- Ascending lexicographic comparison of the four-component keys. -/
def keyLe (k1 k2 : ℕ × ℕ × ℕ × ℤ) : Bool :=
  if k1.1 ≠ k2.1 then decide (k1.1 < k2.1)
  else if k1.2.1 ≠ k2.2.1 then decide (k1.2.1 < k2.2.1)
  else if k1.2.2.1 ≠ k2.2.2.1 then decide (k1.2.2.1 < k2.2.2.1)
  else decide (k1.2.2.2 ≤ k2.2.2.2)

/-- Planned decision exactly as claim C1 words it: candidates over Left,
Forward, Right keeping only the free ones, Back when none remains, otherwise
the head of the stable sort by the lexicographic key, scored by score_for. -/
def decidePlannedSpec (nav : Navigator) (current : Point) (heading : ℕ)
    (sr : SensorRead) : Decision :=
  let pwa := planWantedAbs nav.plan current
  let cands :=
    (([(0, sr.left_free), (1, sr.front_free), (2, sr.right_free)] : List (ℕ × Bool)).filter
      (fun pr => pr.2)).map (fun pr => mkCand nav current heading pwa pr.1)
  if cands.isEmpty then
    { action := Action.Back, score := score_for nav.heur Action.Back sr }
  else
    let sorted := stableSort (fun a b => keyLe (specKey nav.heur sr a) (specKey nav.heur sr b)) cands
    let chosen := (sorted.headD { a := Action.Back, seen := 0, matches_plan := false }).a
    { action := chosen, score := score_for nav.heur chosen sr }

theorem stableInsert_congr {α : Type} (le1 le2 : α → α → Bool)
    (h : ∀ a b, le1 a b = le2 a b) (x : α) (l : List α) :
    stableInsert le1 x l = stableInsert le2 x l := by
  induction l with
  | nil => rfl
  | cons y ys ih => simp only [stableInsert, h x y, ih]

theorem stableSort_congr {α : Type} (le1 le2 : α → α → Bool)
    (h : ∀ a b, le1 a b = le2 a b) (l : List α) :
    stableSort le1 l = stableSort le2 l := by
  induction l with
  | nil => rfl
  | cons x xs ih => simp only [stableSort, ih, stableInsert_congr le1 le2 h x]

/-- The source comparator, read as a non-strict order as std::stable_sort does
(le a b = not (cmp b a)), coincides pointwise with the ascending lexicographic
comparison of the claimed keys. -/
theorem cmp_key_agree (heur : Heuristics) (sr : SensorRead) (a b : Cand) :
    (! cmpLt heur sr b a) = keyLe (specKey heur sr a) (specKey heur sr b) := by
  rcases a with ⟨aa, as, am⟩
  rcases b with ⟨ba, bs, bm⟩
  unfold cmpLt keyLe specKey
  dsimp only
  by_cases h1 : as = 0 <;> by_cases h2 : bs = 0 <;> by_cases h3 : as = bs <;>
    cases am <;> cases bm <;>
      simp_all [decide_not] <;>
        (rw [Bool.eq_iff_iff]
         try split_ifs
         all_goals simp only [Bool.not_eq_true', Bool.and_eq_true, Bool.or_eq_true,
           decide_eq_true_eq, decide_eq_false_iff_not, Bool.not_eq_true]
         all_goals omega)

/-- The three push_cand calls build the same list as filtering the free
candidates in the fixed Left, Forward, Right order. -/
theorem cands_eq (nav : Navigator) (current : Point) (heading : ℕ) (pwa : Char)
    (sr : SensorRead) :
    pushCand nav current heading pwa 0 sr.left_free ++
        pushCand nav current heading pwa 1 sr.front_free ++
          pushCand nav current heading pwa 2 sr.right_free =
      (([(0, sr.left_free), (1, sr.front_free), (2, sr.right_free)] : List (ℕ × Bool)).filter
        (fun pr => pr.2)).map (fun pr => mkCand nav current heading pwa pr.1) := by
  rcases sr with ⟨l, f, r⟩
  dsimp only
  cases l <;> cases f <;> cases r <;> simp [pushCand, List.filter]

/-- Claim C1: Navigator::decidePlanned builds candidates over Left, Forward,
Right keeping only the free ones; returns Back with its heuristic score when no
candidate remains; otherwise returns the first candidate after a stable sort by
the exact lexicographic key (seen == 0 first, then smaller seen, then
matches_plan, then larger score_for), scored by score_for of the chosen
action. -/
theorem decidePlanned_eq_spec (nav : Navigator) (current : Point) (heading : ℕ)
    (sr : SensorRead) :
    nav.decidePlanned current heading sr = decidePlannedSpec nav current heading sr := by
  unfold Navigator.decidePlanned decidePlannedSpec
  dsimp only
  rw [← cands_eq nav current heading (planWantedAbs nav.plan current) sr]
  rw [stableSort_congr (fun a b => ! cmpLt nav.heur sr b a)
    (fun a b => keyLe (specKey nav.heur sr a) (specKey nav.heur sr b))
    (fun a b => cmp_key_agree nav.heur sr a b)]

/-- With default weights, a non-Back action whose direction is free scores 3
(floor of 10/3). -/
theorem score_default_free (a : Action) (ha : a ≠ Action.Back) :
    score_for defaultHeuristics a allFree = 3 := by
  have hbase : scoreBase defaultHeuristics a allFree = 1 := by
    cases a
    · rfl
    · rfl
    · rfl
    · exact absurd rfl ha
  unfold score_for
  dsimp only
  rw [hbase]
  rw [show (1 : ℚ)/3 * 10 = 10/3 by norm_num]
  rw [if_neg (by norm_num : ¬ (10/3 : ℚ) < 0), if_neg (by norm_num : ¬ (10/3 : ℚ) > 10),
    if_neg (by norm_num : ¬ (10/3 : ℚ) > 10), if_neg (by norm_num : ¬ (10/3 : ℚ) < 0)]
  rw [show Int.floor ((10 : ℚ)/3) = 3 by (rw [Int.floor_eq_iff]; norm_num)]
  rfl

/-- On full ties (equal seen, equal plan flags, non-Back actions with default
weights and everything free) the decidePlanned comparator never fires. -/
theorem cmpLt_tie_false (x y : Cand) (hx : x.seen = 255) (hy : y.seen = 255)
    (hmx : x.matches_plan = false) (hmy : y.matches_plan = false)
    (hxa : x.a ≠ Action.Back) (hya : y.a ≠ Action.Back) :
    cmpLt defaultHeuristics allFree x y = false := by
  unfold cmpLt
  dsimp only
  rw [hx, hy, hmx, hmy]
  rw [if_neg (by decide), if_neg (by decide), if_neg (by decide)]
  rw [score_default_free x.a hxa, score_default_free y.a hya]
  decide

/-- Claim C6 names a code bug: with no goal set, planRoute does return false,
but decidePlanned does NOT degrade to decide, contrary to the function's own
doc comment and the spec: on a fresh navigator with every side free it returns
Left (the stable sort keeps the push order Left, Forward, Right on a full tie),
while decide returns Right. -/
theorem noGoal_decidePlanned_diverges_from_decide :
    freshNavigator.planRoute = (false, freshNavigator) ∧
      freshNavigator.has_goal = false ∧
      (freshNavigator.decidePlanned { x := 0, y := 0 } 0 allFree).action = Action.Left ∧
      (freshNavigator.decide allFree).action = Action.Right := by
  refine ⟨rfl, rfl, ?_, rfl⟩
  simp only [Navigator.decidePlanned]
  have hpwa : planWantedAbs freshNavigator.plan { x := 0, y := 0 } = 'X' := rfl
  rw [hpwa]
  have hcands :
      pushCand freshNavigator { x := 0, y := 0 } 0 'X' 0 allFree.left_free ++
          pushCand freshNavigator { x := 0, y := 0 } 0 'X' 1 allFree.front_free ++
            pushCand freshNavigator { x := 0, y := 0 } 0 'X' 2 allFree.right_free =
        [{ a := Action.Left, seen := 255, matches_plan := false },
          { a := Action.Forward, seen := 255, matches_plan := false },
          { a := Action.Right, seen := 255, matches_plan := false }] := by
    decide
  rw [hcands]
  rw [if_neg (by decide)]
  have hRF : cmpLt defaultHeuristics allFree
      { a := Action.Right, seen := 255, matches_plan := false }
      { a := Action.Forward, seen := 255, matches_plan := false } = false :=
    cmpLt_tie_false _ _ rfl rfl rfl rfl (by decide) (by decide)
  have hFL : cmpLt defaultHeuristics allFree
      { a := Action.Forward, seen := 255, matches_plan := false }
      { a := Action.Left, seen := 255, matches_plan := false } = false :=
    cmpLt_tie_false _ _ rfl rfl rfl rfl (by decide) (by decide)
  have hsort : stableSort (fun a b => ! cmpLt defaultHeuristics allFree b a)
      [{ a := Action.Left, seen := 255, matches_plan := false },
        { a := Action.Forward, seen := 255, matches_plan := false },
        { a := Action.Right, seen := 255, matches_plan := false }] =
      [{ a := Action.Left, seen := 255, matches_plan := false },
        { a := Action.Forward, seen := 255, matches_plan := false },
        { a := Action.Right, seen := 255, matches_plan := false }] := by
    simp [stableSort, stableInsert, hRF, hFL]
  rw [show freshNavigator.heur = defaultHeuristics from rfl, hsort]
  rfl

/-! PersistentMemory: host-backend map snapshot and weights files
(PersistentMemory.cpp). -/

/-- Packed wall byte of one cell: N=1, E=2, S=4, W=8 (pmem_encode_map_bytes). -/
def cellByte (c : Cell) : ℕ :=
  (if c.wall_n then 1 else 0) + (if c.wall_e then 2 else 0) +
    (if c.wall_s then 4 else 0) + (if c.wall_w then 8 else 0)

/-- pmem_encode_map_bytes (PersistentMemory.cpp 105-120): w*h bytes in
row-major order. -/
def pmem_encode_map_bytes (m : MazeMap) : List ℕ :=
  (List.range m.h.toNat).flatMap (fun y =>
    (List.range m.w.toNat).map (fun (x : ℕ) => cellByte (m.grid (x : Int) (y : Int))))

/-- Bit position of each direction in the packed byte. -/
def Dir.bitIdx : Dir → ℕ
  | .north => 0
  | .east => 1
  | .south => 2
  | .west => 3

/-- The set_wall calls issued by pmem_decode_map_bytes for one byte, in source
order N, E, S, W, all with present = true. -/
def cellDecodeOps (x y : Int) (b : ℕ) : List (Int × Int × Char × Bool) :=
  (if b.testBit 0 then [(x, y, 'N', true)] else []) ++
    (if b.testBit 1 then [(x, y, 'E', true)] else []) ++
      (if b.testBit 2 then [(x, y, 'S', true)] else []) ++
        (if b.testBit 3 then [(x, y, 'W', true)] else [])

/-- All set_wall calls of the decode double loop, row-major. -/
def decodeOps (w h : Int) (data : List ℕ) : List (Int × Int × Char × Bool) :=
  (List.range h.toNat).flatMap (fun y =>
    (List.range w.toNat).flatMap (fun x =>
      cellDecodeOps (x : Int) (y : Int) (data.getD (y * w.toNat + x) 0)))

/-- pmem_decode_map_bytes (PersistentMemory.cpp 128-141): silently returns when
the buffer is shorter than w*h, else replays set_wall(.., true) for every set
bit. -/
def pmem_decode_map_bytes (out : MazeMap) (data : List ℕ) : MazeMap :=
  if (data.length : Int) < out.w * out.h then out
  else applyOps out (decodeOps out.w out.h data)

/-- In-file record of map.bin on the host backend (MapHeaderHost plus payload):
uint32 magic, uint16 version, w, h, size, then the packed bytes.  The uint16
fields hold the source's static_cast<uint16_t> values, i.e. the dimensions and
payload size reduced mod 65536. -/
structure MapFileHost where
  magic : ℕ
  version : ℕ
  wfield : ℕ
  hfield : ℕ
  size : ℕ
  payload : List ℕ
deriving Repr

/-- PersistentMemory::saveMapSnapshot, host branch (PersistentMemory.cpp
177-196), modelled as the pure construction of the written file. -/
def saveMapSnapshot_host (m : MazeMap) : MapFileHost :=
  let bytes := pmem_encode_map_bytes m
  { magic := 0x4D5A4D50, version := 1, wfield := (m.w % 65536).toNat,
    hfield := (m.h % 65536).toNat, size := bytes.length % 65536, payload := bytes }

/-- PersistentMemory::loadMapSnapshot, host branch (PersistentMemory.cpp
215-231): validate magic and version, compare the stored dimensions against the
target map, read size bytes (failing if fewer are available), then decode into
the target.  Returns the flag and the resulting target map. -/
def loadMapSnapshot_host (f : MapFileHost) (out : MazeMap) : Bool × MazeMap :=
  if ¬ (f.magic = 0x4D5A4D50 ∧ f.version = 1) then (false, out)
  else if ¬ ((f.wfield : Int) = out.w ∧ (f.hfield : Int) = out.h) then (false, out)
  else
    let bytes := f.payload.take f.size
    if bytes.length ≠ f.size then (false, out)
    else (true, pmem_decode_map_bytes out bytes)

/-- The host heuristics file as written by PersistentMemory::saveHeuristics
(PersistentMemory.cpp 305-328): the raw bytes of the Heuristics struct (16
bytes of four floats) and nothing else — no header of any kind. -/
def saveHeuristicsFile_host (payload : List ℕ) : List ℕ :=
  payload

/-- PersistentMemory::loadHeuristics, host file branch (PersistentMemory.cpp
351-366): read sizeof(Heuristics) = 16 bytes; succeed exactly when 16 bytes
were read (gcount check), with no validation of their content. -/
def loadHeuristicsFile_host (file : List ℕ) : Option (List ℕ) :=
  let r := file.take 16
  if r.length = 16 then some r else none

/-- Little-endian value of a byte list. -/
def leNat (bs : List ℕ) : ℕ :=
  bs.foldr (fun b acc => b + 256 * acc) 0

/-- Header bytes that claim C5 says the host weights file starts with:
little-endian magic MZHU = 0x4D5A4855, version 1, size 16. -/
def mzhuHeaderBytes : List ℕ :=
  [0x55, 0x48, 0x5A, 0x4D, 1, 0, 16, 0]

/-- Host weights save as claim C5 words it: header followed by the payload. -/
def saveHeuristicsFileClaimed (payload : List ℕ) : List ℕ :=
  mzhuHeaderBytes ++ payload

/-- Host weights load as claim C5 words it: reject any record whose magic,
version or size field does not match the expected values. -/
def loadHeuristicsFileClaimed (file : List ℕ) : Option (List ℕ) :=
  if leNat (file.take 4) = 0x4D5A4855 ∧ leNat ((file.drop 4).take 2) = 1 ∧
      leNat ((file.drop 6).take 2) = 16 ∧ 16 ≤ (file.drop 8).length then
    some ((file.drop 8).take 16)
  else none

/-- Counterexample to claim C5 as stated: the host backend writes the raw
16-byte payload with no MZHU header (the written file differs from the claimed
header-plus-payload layout), and the host loader accepts a 16-byte file of
zeros whose magic field is not MZHU instead of rejecting it. -/
theorem host_weights_no_header_counterexample :
    saveHeuristicsFile_host (List.replicate 16 0) ≠
        saveHeuristicsFileClaimed (List.replicate 16 0) ∧
      loadHeuristicsFile_host (List.replicate 16 0) = some (List.replicate 16 0) ∧
      leNat ((List.replicate 16 0).take 4) ≠ 0x4D5A4855 ∧
      loadHeuristicsFileClaimed (List.replicate 16 0) = none := by
  refine ⟨?_, by decide, by decide, by decide⟩
  decide

/-- Claim C5, amended: on the host backend saveHeuristics writes exactly the
raw weights payload (no header), and loadHeuristics performs no magic, version
or size validation: it succeeds exactly when at least sizeof(weights) = 16
bytes can be read, returning the first 16 bytes whatever their content. -/
theorem host_weights_raw_payload (payload file : List ℕ) (hp : payload.length = 16) :
    saveHeuristicsFile_host payload = payload ∧
      (saveHeuristicsFile_host payload).length = 16 ∧
      loadHeuristicsFile_host file =
        (if 16 ≤ file.length then some (file.take 16) else none) := by
  refine ⟨rfl, hp, ?_⟩
  unfold loadHeuristicsFile_host
  dsimp only
  by_cases h : 16 ≤ file.length
  · rw [if_pos h, if_pos]
    rw [List.length_take]
    omega
  · rw [if_neg h, if_neg]
    rw [List.length_take]
    omega

/-- Concrete instantiation of host_weights_raw_payload on a 16-byte payload and
a 20-byte file. -/
theorem host_weights_raw_payload_witness :
    (List.replicate 16 5).length = 16 ∧
      (saveHeuristicsFile_host (List.replicate 16 5) = List.replicate 16 5 ∧
        (saveHeuristicsFile_host (List.replicate 16 5)).length = 16 ∧
        loadHeuristicsFile_host (List.replicate 20 7) =
          (if 16 ≤ (List.replicate 20 7 : List ℕ).length then
            some ((List.replicate 20 7 : List ℕ).take 16) else none)) :=
  ⟨by decide, host_weights_raw_payload (List.replicate 16 5) (List.replicate 20 7) (by decide)⟩

/-- Whether one set_wall op (with present = true) addresses the wall bit
(a, b, e): the char must be a valid direction and the bit must be the op's own
cell bit or its in-bounds mirror. -/
def opSetsBit (m : MazeMap) (op : Int × Int × Char × Bool) (a b : Int) (e : Dir) : Prop :=
  match Dir.ofChar op.2.2.1 with
  | none => False
  | some dc => opTouches m op.1 op.2.1 dc a b e

theorem opTouches_congr (m m2 : MazeMap) (hw : m.w = m2.w) (hh : m.h = m2.h)
    (x y : Int) (dc : Dir) (a b : Int) (e : Dir) :
    opTouches m x y dc a b e ↔ opTouches m2 x y dc a b e := by
  unfold opTouches MazeMap.in_bounds
  rw [hw, hh]

theorem opSetsBit_congr (m m2 : MazeMap) (hw : m.w = m2.w) (hh : m.h = m2.h)
    (op : Int × Int × Char × Bool) (a b : Int) (e : Dir) :
    opSetsBit m op a b e ↔ opSetsBit m2 op a b e := by
  unfold opSetsBit
  cases Dir.ofChar op.2.2.1
  · exact Iff.rfl
  · exact opTouches_congr m m2 hw hh _ _ _ a b e

/-- Characterisation of a run of present-true set_wall calls: a bit ends up set
exactly when it started set or some op in the list addresses it. -/
theorem wallBit_applyOps_true (ops : List (Int × Int × Char × Bool)) :
    ∀ (m : MazeMap), (∀ op ∈ ops, op.2.2.2 = true) → ∀ (a b : Int) (e : Dir),
      (wallBit (applyOps m ops) a b e = true ↔
        (wallBit m a b e = true ∨ ∃ op ∈ ops, opSetsBit m op a b e)) := by
  induction ops with
  | nil =>
    intro m _ a b e
    simp [applyOps_nil]
  | cons op rest ih =>
    intro m hall a b e
    rw [applyOps_cons]
    have hmw : (set_wall m op.1 op.2.1 op.2.2.1 op.2.2.2).w = m.w := set_wall_w _ _ _ _ _
    have hmh : (set_wall m op.1 op.2.1 op.2.2.1 op.2.2.2).h = m.h := set_wall_h _ _ _ _ _
    rw [ih _ (fun o ho => hall o (List.mem_cons_of_mem _ ho)) a b e]
    have hbit : wallBit (set_wall m op.1 op.2.1 op.2.2.1 op.2.2.2) a b e = true ↔
        (wallBit m a b e = true ∨ opSetsBit m op a b e) := by
      rw [wallBit_set_wall]
      unfold opSetsBit
      cases Dir.ofChar op.2.2.1 with
      | none => simp
      | some dc =>
        dsimp only
        by_cases ht : opTouches m op.1 op.2.1 dc a b e
        · rw [if_pos ht, hall op (List.mem_cons_self op rest)]
          simp [ht]
        · rw [if_neg ht]
          simp [ht]
    constructor
    · intro h
      rcases h with h | ⟨o, ho, hset⟩
      · rcases hbit.mp h with h2 | h2
        · exact Or.inl h2
        · exact Or.inr ⟨op, List.mem_cons_self op rest, h2⟩
      · rw [opSetsBit_congr _ m hmw hmh] at hset
        exact Or.inr ⟨o, List.mem_cons_of_mem _ ho, hset⟩
    · intro h
      rcases h with h | ⟨o, ho, hset⟩
      · exact Or.inl (hbit.mpr (Or.inl h))
      · rcases List.mem_cons.mp ho with he | ho2
        · subst he
          exact Or.inl (hbit.mpr (Or.inr hset))
        · refine Or.inr ⟨o, ho2, ?_⟩
          rw [opSetsBit_congr _ m hmw hmh]
          exact hset

theorem flatMap_range_length {α : Type} (f : ℕ → List α) (n L : ℕ)
    (hL : ∀ k, (f k).length = L) : ((List.range n).flatMap f).length = n * L := by
  induction n with
  | zero => simp
  | succ k ih =>
    rw [List.range_succ, List.flatMap_append, List.length_append, ih]
    simp only [List.flatMap_cons, List.flatMap_nil, List.append_nil, hL k]
    ring

theorem flatMap_range_getD {α : Type} (f : ℕ → List α) (n L : ℕ)
    (hL : ∀ k, (f k).length = L) (i j : ℕ) (hi : i < n) (hj : j < L) (d : α) :
    ((List.range n).flatMap f).getD (i * L + j) d = (f i).getD j d := by
  induction n with
  | zero => omega
  | succ k ih =>
    rw [List.range_succ, List.flatMap_append]
    by_cases hik : i < k
    · rw [List.getD_eq_getElem?_getD, List.getElem?_append, if_pos, ← List.getD_eq_getElem?_getD]
      · exact ih hik
      · rw [flatMap_range_length f k L hL]
        have h1 : (i + 1) * L ≤ k * L := Nat.mul_le_mul_right L (by omega)
        have h2 : i * L + j < (i + 1) * L := by
          have : (i + 1) * L = i * L + L := by ring
          omega
        omega
    · have hik2 : i = k := by omega
      subst hik2
      rw [List.getD_eq_getElem?_getD, List.getElem?_append_right, ← List.getD_eq_getElem?_getD]
      · rw [flatMap_range_length f i L hL]
        simp only [List.flatMap_cons, List.flatMap_nil, List.append_nil]
        have : i * L + j - i * L = j := by omega
        rw [this]
      · rw [flatMap_range_length f i L hL]
        omega

theorem map_range_getD {α : Type} (f : ℕ → α) (n i : ℕ) (hi : i < n) (d : α) :
    ((List.range n).map f).getD i d = f i := by
  rw [List.getD_eq_getElem?_getD, List.getElem?_map, List.getElem?_range hi]
  rfl

theorem map_range_length {α : Type} (f : ℕ → α) (n : ℕ) :
    ((List.range n).map f).length = n := by
  rw [List.length_map, List.length_range]

theorem pmem_encode_length (m : MazeMap) :
    (pmem_encode_map_bytes m).length = m.h.toNat * m.w.toNat := by
  unfold pmem_encode_map_bytes
  exact flatMap_range_length _ _ _ (fun k => map_range_length _ _)

theorem pmem_encode_getD (m : MazeMap) (x y : ℕ) (hx : x < m.w.toNat) (hy : y < m.h.toNat) :
    (pmem_encode_map_bytes m).getD (y * m.w.toNat + x) 0 =
      cellByte (m.grid (x : Int) (y : Int)) := by
  unfold pmem_encode_map_bytes
  rw [flatMap_range_getD _ m.h.toNat m.w.toNat (fun k => map_range_length _ _) y x hy hx 0]
  exact map_range_getD _ _ _ hx 0

theorem Dir.ofChar_toChar (d : Dir) : Dir.ofChar d.toChar = some d := by
  cases d <;> decide

theorem Dir.exists_iff (P : Dir → Prop) :
    (∃ d, P d) ↔ P .north ∨ P .east ∨ P .south ∨ P .west := by
  constructor
  · rintro ⟨d, h⟩
    cases d
    · exact Or.inl h
    · exact Or.inr (Or.inl h)
    · exact Or.inr (Or.inr (Or.inl h))
    · exact Or.inr (Or.inr (Or.inr h))
  · rintro (h | h | h | h) <;> exact ⟨_, h⟩

theorem mem_cellDecodeOps (x y : Int) (b : ℕ) (op : Int × Int × Char × Bool) :
    op ∈ cellDecodeOps x y b ↔
      ∃ d : Dir, b.testBit d.bitIdx = true ∧ op = (x, y, d.toChar, true) := by
  unfold cellDecodeOps
  rw [Dir.exists_iff]
  simp only [Dir.bitIdx, Dir.toChar, List.mem_append]
  by_cases h0 : b.testBit 0 <;> by_cases h1 : b.testBit 1 <;>
    by_cases h2 : b.testBit 2 <;> by_cases h3 : b.testBit 3 <;>
      simp [h0, h1, h2, h3, or_assoc]

theorem mem_decodeOps (w h : Int) (data : List ℕ) (op : Int × Int × Char × Bool) :
    op ∈ decodeOps w h data ↔
      ∃ (y x : ℕ), y < h.toNat ∧ x < w.toNat ∧
        ∃ d : Dir, (data.getD (y * w.toNat + x) 0).testBit d.bitIdx = true ∧
          op = ((x : Int), (y : Int), d.toChar, true) := by
  unfold decodeOps
  simp only [List.mem_flatMap, List.mem_range, mem_cellDecodeOps]
  constructor
  · rintro ⟨y, hy, x, hx, d, hd, rfl⟩
    exact ⟨y, x, hy, hx, d, hd, rfl⟩
  · rintro ⟨y, x, hy, hx, d, hd, rfl⟩
    exact ⟨y, hy, x, hx, d, hd, rfl⟩

theorem decodeOps_all_true (w h : Int) (data : List ℕ) :
    ∀ op ∈ decodeOps w h data, op.2.2.2 = true := by
  intro op hop
  rw [mem_decodeOps] at hop
  obtain ⟨y, x, _, _, d, _, rfl⟩ := hop
  rfl

theorem wallBit_mkMazeMap (w h a b : Int) (e : Dir) :
    wallBit (mkMazeMap w h) a b e = false := by
  cases e <;> rfl

theorem mkMazeMap_w (w h : Int) : (mkMazeMap w h).w = w := rfl

theorem mkMazeMap_h (w h : Int) : (mkMazeMap w h).h = h := rfl

/-- One wall flag of a cell, selected by direction. -/
def cellBit (c : Cell) : Dir → Bool
  | .north => c.wall_n
  | .east => c.wall_e
  | .south => c.wall_s
  | .west => c.wall_w

theorem wallBit_eq_cellBit (m : MazeMap) (x y : Int) (e : Dir) :
    wallBit m x y e = cellBit (m.grid x y) e := by
  cases e <;> rfl

theorem intOfNat_eq (n : ℕ) : Int.ofNat n = (n : Int) := rfl

theorem cellByte_testBit (c : Cell) (d : Dir) :
    (cellByte c).testBit d.bitIdx = cellBit c d := by
  rcases c with ⟨n, e, s, w⟩
  cases d <;> cases n <;> cases e <;> cases s <;> cases w <;> decide

/-- Core of the snapshot round-trip: a decode op of the encoded coherent map
addresses the in-bounds bit (x, y, e) exactly when that bit is set in the
source map. -/
theorem decode_encode_bit (m : MazeMap) (hC : Coherent m) (x y : Int) (e : Dir)
    (hin : m.in_bounds x y = true) :
    (∃ op ∈ decodeOps m.w m.h (pmem_encode_map_bytes m),
        opSetsBit (mkMazeMap m.w m.h) op x y e) ↔
      wallBit m x y e = true := by
  have hb := (MazeMap.in_bounds_iff m x y).mp hin
  constructor
  · rintro ⟨op, hop, hset⟩
    rw [mem_decodeOps] at hop
    obtain ⟨y2, x2, hy2, hx2, d2, hbit, rfl⟩ := hop
    have hx2b : m.in_bounds (x2 : Int) (y2 : Int) = true := by
      rw [MazeMap.in_bounds_iff]
      omega
    rw [pmem_encode_getD m x2 y2 hx2 hy2] at hbit
    rw [cellByte_testBit, ← wallBit_eq_cellBit] at hbit
    unfold opSetsBit at hset
    rw [Dir.ofChar_toChar] at hset
    dsimp only at hset
    obtain ⟨-, hA | hB⟩ := hset
    · obtain ⟨rfl, rfl, rfl⟩ := hA
      exact hbit
    · obtain ⟨rfl, rfl, -, rfl⟩ := hB
      rw [← hC (x2 : Int) (y2 : Int) d2 hx2b hin]
      exact hbit
  · intro hbit
    refine ⟨(x, y, e.toChar, true), ?_, ?_⟩
    · rw [mem_decodeOps]
      refine ⟨y.toNat, x.toNat, by omega, by omega, e, ?_, ?_⟩
      · rw [pmem_encode_getD m x.toNat y.toNat (by omega) (by omega)]
        rw [cellByte_testBit, ← wallBit_eq_cellBit]
        rw [show ((x.toNat : ℕ) : Int) = x by omega, show ((y.toNat : ℕ) : Int) = y by omega]
        exact hbit
      · rw [show ((x.toNat : ℕ) : Int) = x by omega, show ((y.toNat : ℕ) : Int) = y by omega]
    · unfold opSetsBit
      rw [Dir.ofChar_toChar]
      dsimp only
      exact ⟨hin, Or.inl ⟨rfl, rfl, rfl⟩⟩

/-- Claim C8, amended with the 16-bit header limits: for a coherent map whose
width, height and cell count all fit the uint16 header fields, saving the
snapshot and loading it into a blank map of the same dimensions succeeds and
reproduces every wall bit; loading it into a map of different dimensions
returns false and leaves the target unchanged.  (Maps beyond 65535 cells or
65535 in either dimension overflow the uint16 fields and break the round
trip.) -/
theorem save_load_map_roundtrip (m : MazeMap) (hC : Coherent m)
    (hw : 0 < m.w) (hh : 0 < m.h) (hw16 : m.w < 65536) (hh16 : m.h < 65536)
    (hwh : m.w * m.h < 65536) :
    ((loadMapSnapshot_host (saveMapSnapshot_host m) (mkMazeMap m.w m.h)).1 = true ∧
        ∀ (x y : Int) (e : Dir), m.in_bounds x y = true →
          wallBit (loadMapSnapshot_host (saveMapSnapshot_host m) (mkMazeMap m.w m.h)).2
              x y e = wallBit m x y e) ∧
      ∀ out2 : MazeMap, (out2.w ≠ m.w ∨ out2.h ≠ m.h) →
        loadMapSnapshot_host (saveMapSnapshot_host m) out2 = (false, out2) := by
  have hwn : ((m.w % 65536).toNat : Int) = m.w := by
    rw [Int.emod_eq_of_lt (le_of_lt hw) hw16, Int.toNat_of_nonneg (le_of_lt hw)]
  have hhn : ((m.h % 65536).toNat : Int) = m.h := by
    rw [Int.emod_eq_of_lt (le_of_lt hh) hh16, Int.toNat_of_nonneg (le_of_lt hh)]
  have hlen : (pmem_encode_map_bytes m).length = m.h.toNat * m.w.toNat :=
    pmem_encode_length m
  have hcast : ((m.h.toNat * m.w.toNat : ℕ) : Int) = m.w * m.h := by
    push_cast
    rw [Int.toNat_of_nonneg (le_of_lt hh), Int.toNat_of_nonneg (le_of_lt hw)]
    ring
  have hlt : m.h.toNat * m.w.toNat < 65536 := by
    have : ((m.h.toNat * m.w.toNat : ℕ) : Int) < 65536 := by
      rw [hcast]
      exact hwh
    exact_mod_cast this
  have hsize : (saveMapSnapshot_host m).size = (pmem_encode_map_bytes m).length := by
    unfold saveMapSnapshot_host
    dsimp only
    rw [hlen]
    exact Nat.mod_eq_of_lt hlt
  have hpay : (saveMapSnapshot_host m).payload = pmem_encode_map_bytes m := rfl
  constructor
  · have hload : loadMapSnapshot_host (saveMapSnapshot_host m) (mkMazeMap m.w m.h) =
        (true, pmem_decode_map_bytes (mkMazeMap m.w m.h) (pmem_encode_map_bytes m)) := by
      unfold loadMapSnapshot_host
      rw [if_neg (fun hc => hc ⟨rfl, rfl⟩)]
      rw [if_neg (fun hc => hc ⟨by rw [mkMazeMap_w]; exact hwn, by rw [mkMazeMap_h]; exact hhn⟩)]
      dsimp only
      rw [hsize, hpay, List.take_length]
      rw [if_neg (fun hc => hc rfl)]
    rw [hload]
    have hdec : pmem_decode_map_bytes (mkMazeMap m.w m.h) (pmem_encode_map_bytes m) =
        applyOps (mkMazeMap m.w m.h)
          (decodeOps m.w m.h (pmem_encode_map_bytes m)) := by
      unfold pmem_decode_map_bytes
      rw [mkMazeMap_w, mkMazeMap_h]
      rw [if_neg]
      rw [hlen, hcast]
      omega
    rw [hdec]
    refine ⟨rfl, ?_⟩
    intro x y e hin
    have hchar := wallBit_applyOps_true (decodeOps m.w m.h (pmem_encode_map_bytes m))
      (mkMazeMap m.w m.h) (decodeOps_all_true _ _ _) x y e
    rw [wallBit_mkMazeMap] at hchar
    rw [Bool.eq_iff_iff, hchar, decode_encode_bit m hC x y e hin]
    simp
  · intro out2 hne
    unfold loadMapSnapshot_host
    rw [if_neg (fun hc => hc ⟨rfl, rfl⟩)]
    rw [if_pos]
    intro hc
    obtain ⟨hc1, hc2⟩ := hc
    rw [show (saveMapSnapshot_host m).wfield = (m.w % 65536).toNat from rfl, hwn] at hc1
    rw [show (saveMapSnapshot_host m).hfield = (m.h % 65536).toNat from rfl, hhn] at hc2
    rcases hne with hne | hne
    · exact hne hc1.symm
    · exact hne hc2.symm

/-- Concrete instantiation of save_load_map_roundtrip on a coherent 2x2 map
with one interior wall: the reload reproduces the wall bit at (0,0) east, and
loading into a 3x3 map fails without touching it. -/
theorem save_load_map_roundtrip_witness :
    (Coherent (applyOps (mkMazeMap 2 2) [(0, 0, 'E', true)]) ∧
        0 < (applyOps (mkMazeMap 2 2) [(0, 0, 'E', true)]).w) ∧
      ((loadMapSnapshot_host (saveMapSnapshot_host (applyOps (mkMazeMap 2 2) [(0, 0, 'E', true)]))
          (mkMazeMap (applyOps (mkMazeMap 2 2) [(0, 0, 'E', true)]).w
            (applyOps (mkMazeMap 2 2) [(0, 0, 'E', true)]).h)).1 = true ∧
        loadMapSnapshot_host (saveMapSnapshot_host (applyOps (mkMazeMap 2 2) [(0, 0, 'E', true)]))
            (mkMazeMap 3 3) =
          (false, mkMazeMap 3 3)) := by
  have hC : Coherent (applyOps (mkMazeMap 2 2) [(0, 0, 'E', true)]) :=
    coherent_applyOps _ _ (coherent_mkMazeMap 2 2)
  have hmain := save_load_map_roundtrip (applyOps (mkMazeMap 2 2) [(0, 0, 'E', true)]) hC
    (by decide) (by decide) (by decide) (by decide) (by decide)
  exact ⟨⟨hC, by decide⟩, ⟨hmain.1.1, hmain.2 (mkMazeMap 3 3) (by decide)⟩⟩

/-- Claim C8 counterexample to the unconditional round trip: a 65536-wide map
overflows the uint16 width field of the header (65536 mod 65536 = 0), so
loading the saved snapshot back into a blank map of the very same dimensions
fails the dimension check and returns false instead of reproducing the map. -/
theorem save_load_map_roundtrip_counterexample :
    (loadMapSnapshot_host (saveMapSnapshot_host (mkMazeMap 65536 1))
        (mkMazeMap 65536 1)).1 = false := by
  unfold loadMapSnapshot_host
  rw [if_neg (fun hc => hc ⟨rfl, rfl⟩)]
  rw [if_pos]
  intro hc
  have hc1 := hc.1
  rw [show (saveMapSnapshot_host (mkMazeMap 65536 1)).wfield
        = ((mkMazeMap 65536 1).w % 65536).toNat from rfl, mkMazeMap_w] at hc1
  omega

/-- Claim C9: a successful host map load never clears a wall: the prior walls
survive, and the resulting wall set is exactly the union of the prior walls and
the walls obtained by loading the same snapshot into a blank map of the same
dimensions. -/
theorem load_map_monotone_union (f : MapFileHost) (out : MazeMap)
    (h : (loadMapSnapshot_host f out).1 = true) (a b : Int) (e : Dir) :
    (wallBit out a b e = true → wallBit (loadMapSnapshot_host f out).2 a b e = true) ∧
      (wallBit (loadMapSnapshot_host f out).2 a b e = true ↔
        (wallBit out a b e = true ∨
          wallBit (loadMapSnapshot_host f (mkMazeMap out.w out.h)).2 a b e = true)) := by
  by_cases h1 : ¬ (f.magic = 0x4D5A4D50 ∧ f.version = 1)
  · exfalso
    unfold loadMapSnapshot_host at h
    rw [if_pos h1] at h
    cases h
  by_cases h2 : ¬ ((f.wfield : Int) = out.w ∧ (f.hfield : Int) = out.h)
  · exfalso
    unfold loadMapSnapshot_host at h
    rw [if_neg h1, if_pos h2] at h
    cases h
  by_cases h3 : (f.payload.take f.size).length ≠ f.size
  · exfalso
    unfold loadMapSnapshot_host at h
    rw [if_neg h1, if_neg h2] at h
    dsimp only at h
    rw [if_pos h3] at h
    cases h
  have h2b : ¬ ¬ ((f.wfield : Int) = (mkMazeMap out.w out.h).w ∧
      (f.hfield : Int) = (mkMazeMap out.w out.h).h) := by
    rw [mkMazeMap_w, mkMazeMap_h]
    exact h2
  have houtload : loadMapSnapshot_host f out =
      (true, pmem_decode_map_bytes out (f.payload.take f.size)) := by
    unfold loadMapSnapshot_host
    rw [if_neg h1, if_neg h2]
    dsimp only
    rw [if_neg h3]
  have hblankload : loadMapSnapshot_host f (mkMazeMap out.w out.h) =
      (true, pmem_decode_map_bytes (mkMazeMap out.w out.h) (f.payload.take f.size)) := by
    unfold loadMapSnapshot_host
    rw [if_neg h1, if_neg h2b]
    dsimp only
    rw [if_neg h3]
  rw [houtload, hblankload]
  dsimp only
  unfold pmem_decode_map_bytes
  rw [mkMazeMap_w, mkMazeMap_h]
  by_cases h4 : ((f.payload.take f.size).length : Int) < out.w * out.h
  · rw [if_pos h4, if_pos h4]
    simp [wallBit_mkMazeMap]
  · rw [if_neg h4, if_neg h4]
    have hout := wallBit_applyOps_true (decodeOps out.w out.h (f.payload.take f.size))
      out (decodeOps_all_true _ _ _) a b e
    have hblank := wallBit_applyOps_true (decodeOps out.w out.h (f.payload.take f.size))
      (mkMazeMap out.w out.h) (decodeOps_all_true _ _ _) a b e
    rw [wallBit_mkMazeMap] at hblank
    constructor
    · intro hb
      exact hout.mpr (Or.inl hb)
    · rw [hout, hblank]
      have hcong : ∀ op, opSetsBit out op a b e ↔
          opSetsBit (mkMazeMap out.w out.h) op a b e :=
        fun op => opSetsBit_congr out (mkMazeMap out.w out.h) rfl rfl op a b e
      constructor
      · rintro (hb | ⟨op, hop, hset⟩)
        · exact Or.inl hb
        · exact Or.inr (Or.inr ⟨op, hop, (hcong op).mp hset⟩)
      · rintro (hb | hb | ⟨op, hop, hset⟩)
        · exact Or.inl hb
        · cases hb
        · exact Or.inr ⟨op, hop, (hcong op).mpr hset⟩

/-- Concrete instantiation of load_map_monotone_union: loading a snapshot with
an east wall at (0,0) into a map that already has a north wall at (1,1) keeps
the north wall and forms the union. -/
theorem load_map_monotone_union_witness :
    ((loadMapSnapshot_host (saveMapSnapshot_host (applyOps (mkMazeMap 2 2) [(0, 0, 'E', true)]))
        (applyOps (mkMazeMap 2 2) [(1, 1, 'N', true)])).1 = true ∧
      (wallBit (applyOps (mkMazeMap 2 2) [(1, 1, 'N', true)]) 1 1 Dir.north = true →
        wallBit (loadMapSnapshot_host
            (saveMapSnapshot_host (applyOps (mkMazeMap 2 2) [(0, 0, 'E', true)]))
            (applyOps (mkMazeMap 2 2) [(1, 1, 'N', true)])).2 1 1 Dir.north = true)) := by
  have happ := load_map_monotone_union
    (saveMapSnapshot_host (applyOps (mkMazeMap 2 2) [(0, 0, 'E', true)]))
    (applyOps (mkMazeMap 2 2) [(1, 1, 'N', true)]) (by decide) 1 1 Dir.north
  exact ⟨by decide, happ.1⟩

end MazeSolver
